import Mathlib

/-!
Verification of the screenshot-to-WebP streaming pipeline core
(`src/native` of the screenshot-webp repository) against its
natural-language specification.

Each section embeds one C++ component as executable Lean definitions,
translated directly from the source files:

* `ultra_streaming_pipeline.cc` : configuration clamps, chunk creation
  (the Tiler), the chunk combiner, the memory-admission state machine,
  and the progress-callback handling of the submission loop.
* `webp_encoder.cc`             : the mock `EncodeInternal` and
  `CombineEncodedTiles`.
* `memory_pool.cc`              : `GetBuffer` / `ReturnBuffer` /
  `FindBestFitBuffer` / `CleanupExpiredBuffers`.
* `zero_copy_optimizer.cc`      : the reference-counted `ZeroCopyBuffer`.
* `simd_converter.cc`           : the scalar, SSE2, AVX2 and NEON
  BGRA-to-RGBA conversions.

Machine integers are modelled as `Nat` with explicit `% 2 ^ 32`
(resp. `% 2 ^ 64`) where C++ unsigned wrap-around matters.
-/

namespace ScreenshotWebP

/-! ## Byte-level helpers

Little-endian serialisation as performed by the byte pushes in
`webp_encoder.cc` and `ultra_streaming_pipeline.cc`:
`push(v & 0xFF); push((v >> 8) & 0xFF); ...`. -/

/-- Four little-endian bytes of a value, as pushed by the C++ sources
(`v & 0xFF`, `(v >> 8) & 0xFF`, `(v >> 16) & 0xFF`, `(v >> 24) & 0xFF`). -/
def le32 (v : Nat) : List Nat :=
  [v % 256, v / 256 % 256, v / 65536 % 256, v / 16777216 % 256]

/-- Three little-endian bytes of a value (the 24-bit canvas fields of the
VP8X record). -/
def le24 (v : Nat) : List Nat :=
  [v % 256, v / 256 % 256, v / 65536 % 256]

/-- Read four bytes at offset `i` as a little-endian 32-bit value. -/
def readLE32 (l : List Nat) (i : Nat) : Nat :=
  l.getD i 0 + 256 * l.getD (i + 1) 0 + 65536 * l.getD (i + 2) 0 +
    16777216 * l.getD (i + 3) 0

theorem le32_length (v : Nat) : (le32 v).length = 4 := rfl

theorem readLE32_le32 (pre : List Nat) (v : Nat) (rest : List Nat)
    (hpre : pre.length = 4) (hv : v < 2 ^ 32) :
    readLE32 (pre ++ (le32 v ++ rest)) 4 = v := by
  match pre, hpre with
  | [a, b, c, d], _ =>
    show readLE32 (a :: b :: c :: d :: v % 256 :: v / 256 % 256 ::
      v / 65536 % 256 :: v / 16777216 % 256 :: rest) 4 = v
    simp only [readLE32, List.getD]
    norm_num [List.getElem?_cons_succ, List.getElem?_cons_zero]
    omega

/-! ## Pipeline configuration (`UltraStreamingPipeline::SetChunkSize`,
`SetMaxMemoryUsage`, `SetCompressionLevel`,
`ultra_streaming_pipeline.cc` lines 517-528).

`SetCompressionLevel` takes a C++ `int`, so it is modelled on `Int`. -/

/-- Translation of `SetChunkSize`: stores `max(64u, width)` and
`max(64u, height)`. -/
def setChunkSize (width height : Nat) : Nat × Nat :=
  (max 64 width, max 64 height)

/-- Translation of `SetMaxMemoryUsage`: stores `max(256ULL, max_memory_mb)`. -/
def setMaxMemoryUsage (max_memory_mb : Nat) : Nat :=
  max 256 max_memory_mb

/-- Translation of `SetCompressionLevel`: stores `std::clamp(level, 1, 9)`. -/
def setCompressionLevel (level : Int) : Int :=
  if level < 1 then 1 else if 9 < level then 9 else level

/-- Translation of `ConfigureUltraStreaming`
(`ultra_streaming_pipeline.cc` lines 580-589): applies the three setters
to the global pipeline; the resulting stored configuration. -/
def configureUltraStreaming (chunk_width chunk_height max_memory_mb : Nat)
    (compression_level : Int) : (Nat × Nat) × Nat × Int :=
  (setChunkSize chunk_width chunk_height,
   setMaxMemoryUsage max_memory_mb,
   setCompressionLevel compression_level)

/-- C10: every configuration argument triple is clamped into its valid
range: the stored chunk dimensions are at least 64 each, the stored
memory budget is at least 256 MB, and the stored compression level lies
in `[1, 9]`; arguments already inside the ranges are stored unchanged. -/
theorem configure_clamps (w h mb : Nat) (level : Int) :
    64 ≤ (setChunkSize w h).1 ∧ 64 ≤ (setChunkSize w h).2 ∧
    256 ≤ setMaxMemoryUsage mb ∧
    1 ≤ setCompressionLevel level ∧ setCompressionLevel level ≤ 9 ∧
    (64 ≤ w → (setChunkSize w h).1 = w) ∧
    (64 ≤ h → (setChunkSize w h).2 = h) ∧
    (256 ≤ mb → setMaxMemoryUsage mb = mb) ∧
    (1 ≤ level → level ≤ 9 → setCompressionLevel level = level) ∧
    configureUltraStreaming w h mb level =
      (setChunkSize w h, setMaxMemoryUsage mb, setCompressionLevel level) := by
  unfold setChunkSize setMaxMemoryUsage setCompressionLevel
    configureUltraStreaming
  refine ⟨by omega, by omega, by omega, ?_, ?_, by intro h; omega,
    by intro h; omega, by intro h; omega, ?_, rfl⟩ <;>
    (try intro h1 h2) <;> split <;> omega

/-! ## The mock WebP encoder (`WebPEncoder::EncodeInternal`,
`webp_encoder.cc` lines 24-77).

The pixel buffer is modelled as `Option (List Nat)` (`none` = null
pointer); the encoding-parameter struct is never read by the function, so
it is carried as an arbitrary type. `width * height` is a `uint32_t`
product and wraps modulo `2 ^ 32`. The data loop pushes `i % 256` while
`i < imageDataSize && result.size() < 1000000`; the header occupies 20
bytes, so at most `1000000 - 20` payload bytes are pushed. -/

/-- Translation of `WebPEncoder::EncodeInternal`. Byte values of the
string literals: RIFF = 82,73,70,70; WEBP = 87,69,66,80;
VP8 followed by a space = 86,80,56,32. -/
def encodeInternal {P : Type} (data : Option (List Nat))
    (width height _stride : Nat) (_has_alpha : Bool) (_params : P) :
    List Nat :=
  match data with
  | none => []
  | some _ =>
    if width = 0 ∨ height = 0 then []
    else
      let fileSize := (width * height + 100) % 2 ^ 32
      let imageDataSize := width * height % 2 ^ 32 / 10
      [82, 73, 70, 70] ++ le32 fileSize ++ [87, 69, 66, 80] ++
        [86, 80, 56, 32] ++ le32 imageDataSize ++
        (List.range (min imageDataSize (1000000 - 20))).map (· % 256)

/-- Translation of `WebPEncoder::EncodeRGBA`: calls `EncodeInternal` with
`has_alpha = true`. -/
def encodeRGBA {P : Type} (data : Option (List Nat))
    (width height stride : Nat) (params : P) : List Nat :=
  encodeInternal data width height stride true params

/-- Translation of `WebPEncoder::EncodeRGB`: calls `EncodeInternal` with
`has_alpha = false`. -/
def encodeRGB {P : Type} (data : Option (List Nat))
    (width height stride : Nat) (params : P) : List Nat :=
  encodeInternal data width height stride false params

/-- C9: for non-null data and nonzero dimensions, the output of
`EncodeInternal` (hence of `EncodeRGBA`) is a function of width and
height alone: two calls with the same dimensions but different pixel
contents, strides, alpha flags and encoding parameters (even parameters
of different types) return byte-identical results. -/
theorem encodeInternal_ignores_pixels {P Q : Type}
    (d1 d2 : List Nat) (width height s1 s2 : Nat) (a1 a2 : Bool)
    (p1 : P) (p2 : Q) (_hw : 0 < width) (_hh : 0 < height) :
    encodeInternal (some d1) width height s1 a1 p1 =
      encodeInternal (some d2) width height s2 a2 p2 ∧
    encodeRGBA (some d1) width height s1 p1 =
      encodeRGB (some d2) width height s2 p2 := by
  constructor <;> rfl

/-- Witness for C9 at concrete inputs: two 2-by-1 frames with different
pixel bytes, strides and parameters encode to the same byte list. -/
theorem encodeInternal_ignores_pixels_witness :
    encodeInternal (some [1, 2, 3, 4, 5, 6, 7, 8]) 2 1 8 true (37 : Nat) =
      encodeInternal (some [9, 9, 9, 9, 9, 9, 9, 9]) 2 1 16 false
        (true : Bool) ∧
    encodeRGBA (some [1, 2, 3, 4, 5, 6, 7, 8]) 2 1 8 (37 : Nat) =
      encodeRGB (some [9, 9, 9, 9, 9, 9, 9, 9]) 2 1 16 (true : Bool) :=
  encodeInternal_ignores_pixels [1, 2, 3, 4, 5, 6, 7, 8]
    [9, 9, 9, 9, 9, 9, 9, 9] 2 1 8 16 true false 37 true
    (by decide) (by decide)

/-! ## The container composers.

Two functions in the source assemble a container from per-chunk payloads:

* `UltraStreamingPipeline::CombineEncodedChunks`
  (`ultra_streaming_pipeline.cc` lines 465-497): inserts the 12 literal
  bytes of the string RIFF, four NUL bytes and WEBP, appends the chunk
  payloads in order, and finally memcpys the little-endian `uint32_t`
  value `combined_result.size() - 8` over bytes 4..7.
* `WebPEncoder::CombineEncodedTiles` (`webp_encoder.cc` lines 88-145):
  writes RIFF, then a size field computed as the `uint32_t` running sum
  of the tile payload lengths plus 100 (before any assembly), then WEBP,
  a VP8X record (chunk size 10, an alpha flag byte 0x10, three reserved
  bytes, and `total_width - 1`, `total_height - 1` as 24-bit
  little-endian fields), then the tile payloads in order. -/

/-- Translation of `UltraStreamingPipeline::CombineEncodedChunks`.
The overwrite of bytes 4..7 is rendered as `take 4 ++ le32 ++ drop 8`. -/
def combineEncodedChunks (encoded_chunks : List (List Nat)) : List Nat :=
  let body := [82, 73, 70, 70, 0, 0, 0, 0, 87, 69, 66, 80] ++
    encoded_chunks.flatten
  let file_size := (body.length - 8) % 2 ^ 32
  body.take 4 ++ le32 file_size ++ body.drop 8

/-- Translation of `WebPEncoder::CombineEncodedTiles`. The `uint32_t`
subtractions `total_width - 1` and `total_height - 1` are rendered as
addition of `2 ^ 32 - 1` modulo `2 ^ 32`. -/
def combineEncodedTiles (tiles : List (List Nat))
    (total_width total_height : Nat) (has_alpha : Bool) : List Nat :=
  let totalSize :=
    (tiles.foldl (fun acc t => (acc + t.length) % 2 ^ 32) 0 + 100) % 2 ^ 32
  let wm1 := (total_width + (2 ^ 32 - 1)) % 2 ^ 32
  let hm1 := (total_height + (2 ^ 32 - 1)) % 2 ^ 32
  [82, 73, 70, 70] ++ le32 totalSize ++ [87, 69, 66, 80] ++
    [86, 80, 56, 88] ++ le32 10 ++
    [if has_alpha then 16 else 0, 0, 0, 0] ++
    le24 wm1 ++ le24 hm1 ++ tiles.flatten

/-- Whether a byte list contains the four VP8X tag bytes at some offset. -/
def hasVP8XRecord (l : List Nat) : Bool :=
  (List.range l.length).any fun i => (l.drop i).take 4 == [86, 80, 56, 88]

theorem runningSum_eq (tiles : List (List Nat)) (acc : Nat) :
    tiles.foldl (fun acc t => (acc + t.length) % 2 ^ 32) (acc % 2 ^ 32) =
      (acc + (tiles.map List.length).sum) % 2 ^ 32 := by
  induction tiles generalizing acc with
  | nil => simp
  | cons t ts ih =>
    simp only [List.foldl_cons, List.map_cons, List.sum_cons]
    have h1 : (acc % 2 ^ 32 + t.length) % 2 ^ 32 =
        (acc + t.length) % 2 ^ 32 := by omega
    rw [h1, ih (acc + t.length)]
    omega

theorem combineEncodedChunks_eq (chunks : List (List Nat)) :
    combineEncodedChunks chunks =
      [82, 73, 70, 70] ++ (le32 ((4 + chunks.flatten.length) % 2 ^ 32) ++
        ([87, 69, 66, 80] ++ chunks.flatten)) := by
  simp only [combineEncodedChunks]
  have hlen : ([82, 73, 70, 70, 0, 0, 0, 0, 87, 69, 66, 80] ++
      chunks.flatten).length - 8 = 4 + chunks.flatten.length := by
    simp; omega
  rw [hlen]
  rfl

theorem combineEncodedTiles_eq (tiles : List (List Nat)) (W H : Nat)
    (alpha : Bool) (hW1 : 1 ≤ W) (hW2 : W ≤ 2 ^ 24) (hH1 : 1 ≤ H)
    (hH2 : H ≤ 2 ^ 24) :
    combineEncodedTiles tiles W H alpha =
      [82, 73, 70, 70] ++
        (le32 (((tiles.map List.length).sum + 100) % 2 ^ 32) ++
          ([87, 69, 66, 80] ++ ([86, 80, 56, 88] ++ (le32 10 ++
            ([if alpha then 16 else 0, 0, 0, 0] ++ (le24 (W - 1) ++
              (le24 (H - 1) ++ tiles.flatten))))))) := by
  simp only [combineEncodedTiles]
  have h0 := runningSum_eq tiles 0
  simp only [Nat.zero_mod, Nat.zero_add] at h0
  rw [h0]
  have hw : (W + (2 ^ 32 - 1)) % 2 ^ 32 = W - 1 := by omega
  have hh : (H + (2 ^ 32 - 1)) % 2 ^ 32 = H - 1 := by omega
  have hs : ((tiles.map List.length).sum % 2 ^ 32 + 100) % 2 ^ 32 =
      ((tiles.map List.length).sum + 100) % 2 ^ 32 := by omega
  rw [hw, hh, hs]
  rfl

/-- C3 counterexample: no single composer satisfies the claimed
conjunction. The pipeline composer `CombineEncodedChunks`, applied to the
one-payload list `[[0]]`, produces an output containing no VP8X
(extended-canvas) record at all; the tile composer `CombineEncodedTiles`,
applied to the same payloads with a 100-by-100 canvas, produces a size
field (101 = payload size + 100) that differs from the total output
length minus 8 (which is 23). -/
theorem combine_claim_counterexample :
    hasVP8XRecord (combineEncodedChunks [[0]]) = false ∧
    ¬ (readLE32 (combineEncodedTiles [[0]] 100 100 false) 4 =
        (combineEncodedTiles [[0]] 100 100 false).length - 8) := by
  decide

/-- C3 amended: `CombineEncodedChunks` produces exactly the container
magic (RIFF, size, WEBP) followed by the chunk payloads in generation
order, with the size field equal to the total output length minus 8
written back after assembly, and no extended-canvas record.
`CombineEncodedTiles` produces the magic, then a VP8X extended-canvas
record carrying `canvasWidth - 1` and `canvasHeight - 1` as 24-bit
little-endian fields plus an alpha-presence flag byte (0x10), followed by
the payloads in order, but its size field is the total payload size plus
100 (written before assembly), not the output length minus 8. -/
theorem container_composer_spec (chunks tiles : List (List Nat))
    (W H : Nat) (alpha : Bool)
    (hsum : (chunks.map List.length).sum + 4 < 2 ^ 32)
    (hW1 : 1 ≤ W) (hW2 : W ≤ 2 ^ 24) (hH1 : 1 ≤ H) (hH2 : H ≤ 2 ^ 24) :
    combineEncodedChunks chunks =
      [82, 73, 70, 70] ++ (le32 ((combineEncodedChunks chunks).length - 8) ++
        ([87, 69, 66, 80] ++ chunks.flatten)) ∧
    readLE32 (combineEncodedChunks chunks) 4 =
      (combineEncodedChunks chunks).length - 8 ∧
    (combineEncodedChunks chunks).drop 12 = chunks.flatten ∧
    combineEncodedTiles tiles W H alpha =
      [82, 73, 70, 70] ++
        (le32 (((tiles.map List.length).sum + 100) % 2 ^ 32) ++
          ([87, 69, 66, 80] ++ ([86, 80, 56, 88] ++ (le32 10 ++
            ([if alpha then 16 else 0, 0, 0, 0] ++ (le24 (W - 1) ++
              (le24 (H - 1) ++ tiles.flatten))))))) ∧
    readLE32 (combineEncodedTiles tiles W H alpha) 4 =
      ((tiles.map List.length).sum + 100) % 2 ^ 32 ∧
    (combineEncodedTiles tiles W H alpha).drop 30 = tiles.flatten := by
  have hflat : chunks.flatten.length = (chunks.map List.length).sum :=
    List.length_flatten chunks
  have hA := combineEncodedChunks_eq chunks
  have hlen : (combineEncodedChunks chunks).length =
      12 + chunks.flatten.length := by
    rw [hA]; simp [le32]; omega
  have hmod : (4 + chunks.flatten.length) % 2 ^ 32 =
      4 + chunks.flatten.length := by omega
  have hC := combineEncodedTiles_eq tiles W H alpha hW1 hW2 hH1 hH2
  refine ⟨?_, ?_, ?_, hC, ?_, ?_⟩
  · rw [hlen]
    have h128 : 12 + chunks.flatten.length - 8 =
        4 + chunks.flatten.length := by omega
    rw [h128, hA, hmod]
  · rw [hlen, hA,
      readLE32_le32 [82, 73, 70, 70] ((4 + chunks.flatten.length) % 2 ^ 32)
        ([87, 69, 66, 80] ++ chunks.flatten) rfl (Nat.mod_lt _ (by norm_num))]
    omega
  · rw [hA]
    rfl
  · rw [hC,
      readLE32_le32 [82, 73, 70, 70]
        (((tiles.map List.length).sum + 100) % 2 ^ 32) _ rfl
        (Nat.mod_lt _ (by norm_num))]
  · rw [hC]
    rfl

/-- Witness for C3 (amended) at concrete inputs: one 2-byte payload,
canvas 640 by 480 with alpha; the tile-composer size field reads back as
102 = 2 + 100. -/
theorem container_composer_spec_witness :
    readLE32 (combineEncodedTiles [[7, 8]] 640 480 true) 4 = 102 ∧
    (combineEncodedChunks [[9]]).drop 12 = [9] := by
  have h := container_composer_spec [[9]] [[7, 8]] 640 480 true
    (by norm_num) (by norm_num) (by norm_num) (by norm_num) (by norm_num)
  refine ⟨?_, ?_⟩
  · rw [h.2.2.2.2.1]
    norm_num
  · rw [h.2.2.1]
    rfl

/-! ## SIMD pixel-format conversion (`simd_converter.cc`).

A pixel buffer is modelled as a function from byte index to byte value;
each conversion is modelled by the byte it writes at destination index
`j` (defined for `j < 4 * pixel_count`). The scalar reference loop
(`ConvertBGRAToRGBA_C`, lines 80-87) writes
`rgba[i*4+c] = bgra[i*4+p(c)]` with `p = (2,1,0,3)`; with `i = j / 4`
and `c = j % 4` this is the match below. The vectorized paths process
`pixel_count & ~3` (resp. `& ~7`) pixels in 16-byte (resp. 32-byte)
blocks through byte-shuffle tables and finish the remainder with the
scalar loop. -/

/-- Translation of `ConvertBGRAToRGBA_C`: the byte written at
destination index `j`. -/
def convertBGRAToRGBA_C (src : Nat → Nat) (j : Nat) : Nat :=
  match j % 4 with
  | 0 => src (4 * (j / 4) + 2)
  | 1 => src (4 * (j / 4) + 1)
  | 2 => src (4 * (j / 4))
  | _ => src (4 * (j / 4) + 3)

/-- The `_mm_setr_epi8` shuffle mask of `ConvertBGRAToRGBA_SSE2`
(lines 94-99). -/
def sse2ShuffleMask : List Nat :=
  [2, 1, 0, 3, 6, 5, 4, 7, 10, 9, 8, 11, 14, 13, 12, 15]

/-- Translation of `ConvertBGRAToRGBA_SSE2` (lines 90-114): the first
`pixel_count & ~3` pixels are produced 16 bytes at a time by
`_mm_shuffle_epi8` (destination byte `j` of a block reads source byte
`mask[j % 16]` of the same block); the remaining pixels fall through to
the scalar loop. -/
def convertBGRAToRGBA_SSE2 (src : Nat → Nat) (pixel_count j : Nat) : Nat :=
  let simd_pixels := pixel_count - pixel_count % 4
  if j < 4 * simd_pixels then
    src (16 * (j / 16) + sse2ShuffleMask.getD (j % 16) 0)
  else convertBGRAToRGBA_C src j

/-- The `_mm256_setr_epi8` shuffle mask of `ConvertBGRAToRGBA_AVX2`
(lines 122-125): the 16-byte mask duplicated over both 128-bit lanes. -/
def avx2ShuffleMask : List Nat :=
  [2, 1, 0, 3, 6, 5, 4, 7, 10, 9, 8, 11, 14, 13, 12, 15,
   2, 1, 0, 3, 6, 5, 4, 7, 10, 9, 8, 11, 14, 13, 12, 15]

/-- Translation of `ConvertBGRAToRGBA_AVX2` (lines 118-140): the first
`pixel_count & ~7` pixels are produced 32 bytes at a time by
`_mm256_shuffle_epi8`, which shuffles within each 128-bit lane
(destination byte `o` of a block reads byte `mask[o]` of the same lane);
the remainder falls through to the scalar loop. -/
def convertBGRAToRGBA_AVX2 (src : Nat → Nat) (pixel_count j : Nat) : Nat :=
  let simd_pixels := pixel_count - pixel_count % 8
  if j < 4 * simd_pixels then
    src (32 * (j / 32) + 16 * (j % 32 / 16) +
      avx2ShuffleMask.getD (j % 32) 0)
  else convertBGRAToRGBA_C src j

/-- Semantics of `vqtbl1q_u8`: byte `k` of the result is byte
`idx[k]` of the table vector (all indices used in the source are
below 16, so the out-of-range-gives-zero case never arises). -/
def neonTbl (v : Nat → Nat) (idx : List Nat) (k : Nat) : Nat :=
  v (idx.getD k 0)

/-- Translation of `ConvertBGRAToRGBA_NEON` (lines 144-173): four
channel-extraction table lookups followed by four reconstruction table
lookups whose results are combined with bitwise OR (the running
`result = table | result` chain), for the first `pixel_count & ~3`
pixels; the remainder falls through to the scalar loop. -/
def convertBGRAToRGBA_NEON (src : Nat → Nat) (pixel_count j : Nat) : Nat :=
  let simd_pixels := pixel_count - pixel_count % 4
  if j < 4 * simd_pixels then
    let pixels : Nat → Nat := fun k => src (16 * (j / 16) + k)
    let b := neonTbl pixels [0, 4, 8, 12, 0, 0, 0, 0, 0, 0, 0, 0, 0, 0, 0, 0]
    let g := neonTbl pixels [1, 5, 9, 13, 0, 0, 0, 0, 0, 0, 0, 0, 0, 0, 0, 0]
    let r := neonTbl pixels [2, 6, 10, 14, 0, 0, 0, 0, 0, 0, 0, 0, 0, 0, 0, 0]
    let a := neonTbl pixels [3, 7, 11, 15, 0, 0, 0, 0, 0, 0, 0, 0, 0, 0, 0, 0]
    let k := j % 16
    neonTbl a [0, 0, 0, 3, 1, 1, 1, 1, 2, 2, 2, 2, 3, 3, 3, 3] k |||
      (neonTbl b [0, 0, 2, 0, 1, 1, 1, 1, 2, 2, 2, 2, 3, 3, 3, 3] k |||
        (neonTbl g [0, 1, 0, 0, 1, 1, 1, 1, 2, 2, 2, 2, 3, 3, 3, 3] k |||
          neonTbl r [0, 0, 0, 0, 1, 1, 1, 1, 2, 2, 2, 2, 3, 3, 3, 3] k))
  else convertBGRAToRGBA_C src j

/-- The per-channel source column read by the scalar loop for
destination column `c`. -/
def bgraPermC : Nat → Nat
  | 0 => 2
  | 1 => 1
  | 2 => 0
  | _ => 3

theorem convertBGRAToRGBA_C_eq (src : Nat → Nat) (j : Nat) :
    convertBGRAToRGBA_C src j = src (4 * (j / 4) + bgraPermC (j % 4)) := by
  have h4 : j % 4 = 0 ∨ j % 4 = 1 ∨ j % 4 = 2 ∨ j % 4 = 3 := by omega
  rcases h4 with h | h | h | h <;>
    simp [convertBGRAToRGBA_C, bgraPermC, h]

theorem sse2ShuffleMask_getD (r : Nat) (h : r < 16) :
    sse2ShuffleMask.getD r 0 = 4 * (r / 4) + bgraPermC (r % 4) := by
  interval_cases r <;> rfl

theorem avx2ShuffleMask_getD (r : Nat) (h : r < 32) :
    avx2ShuffleMask.getD r 0 = 4 * (r % 16 / 4) + bgraPermC (r % 4) := by
  interval_cases r <;> rfl

/-- C4: the SSE2 and AVX2 BGRA-to-RGBA paths are byte-identical to the
scalar reference on every byte of every valid input, tail pixels
included; the NEON path is not: on the four-pixel input whose byte `k`
holds `k + 1` (so pixel 0 is B=1, G=2, R=3, A=4), the NEON path writes 7
(the bitwise OR 3 | 2 | 1 | 4 of all four channel bytes) at destination
byte 0 where the scalar reference writes 3 (the red byte). -/
theorem simd_conversion_equivalence (src : Nat → Nat) (n j : Nat)
    (_hj : j < 4 * n) :
    convertBGRAToRGBA_SSE2 src n j = convertBGRAToRGBA_C src j ∧
    convertBGRAToRGBA_AVX2 src n j = convertBGRAToRGBA_C src j ∧
    convertBGRAToRGBA_NEON (fun k => k + 1) 4 0 = 7 ∧
    convertBGRAToRGBA_C (fun k => k + 1) 0 = 3 := by
  refine ⟨?_, ?_, by decide, by decide⟩
  · simp only [convertBGRAToRGBA_SSE2]
    split
    · rw [sse2ShuffleMask_getD (j % 16) (by omega),
        convertBGRAToRGBA_C_eq]
      have hp : j % 16 % 4 = j % 4 := by omega
      rw [hp]
      congr 1
      generalize bgraPermC (j % 4) = p
      omega
    · rfl
  · simp only [convertBGRAToRGBA_AVX2]
    split
    · rw [avx2ShuffleMask_getD (j % 32) (by omega),
        convertBGRAToRGBA_C_eq]
      have hp : j % 32 % 4 = j % 4 := by omega
      have hq : j % 32 % 16 = j % 16 := by omega
      rw [hp, hq]
      congr 1
      generalize bgraPermC (j % 4) = p
      omega
    · rfl

/-- Witness for C4 at a concrete input: byte 0 of a one-pixel buffer
under the SSE2 path (the tail case) agrees with the scalar reference. -/
theorem simd_conversion_equivalence_witness :
    convertBGRAToRGBA_SSE2 (fun k => k) 1 0 = convertBGRAToRGBA_C
      (fun k => k) 0 :=
  (simd_conversion_equivalence (fun k => k) 1 0 (by decide)).1

/-! ## The buffer pool (`ScreenshotMemoryPool`, `memory_pool.cc` and
`common/screenshot_common.h`).

Idle buffers are the `available_buffers_` vector of `BufferInfo`
records; a checked-out buffer is represented by its capacity (the pool
never stores checked-out buffers). Timestamps are `uint64_t`
milliseconds; the subtraction `current_time - last_used_time` is
modelled with explicit wrap-around. -/

/-- `BufferInfo` (`screenshot_common.h` lines 39-46): capacity and
last-used timestamp of one idle pooled buffer. -/
structure BufferInfo where
  size : Nat
  last_used_time : Nat
  deriving Repr, DecidableEq

/-- `PoolStats` (`screenshot_common.h` lines 28-34). -/
structure PoolStats where
  available_buffers : Nat
  total_buffers_created : Nat
  total_memory_allocated : Nat
  peak_memory_usage : Nat
  memory_reuse_count : Nat
  deriving Repr, DecidableEq

/-- The pool state: idle buffers plus statistics. -/
structure PoolState where
  available : List BufferInfo
  stats : PoolStats
  deriving Repr, DecidableEq

/-- The zero-initialised pool of the `ScreenshotMemoryPool`
constructor. -/
def initialPool : PoolState := ⟨[], ⟨0, 0, 0, 0, 0⟩⟩

/-- `MAX_POOL_SIZE` (`screenshot_common.h` line 55). -/
def maxPoolSize : Nat := 10

/-- `BUFFER_TIMEOUT_MS` (`screenshot_common.h` line 56). -/
def bufferTimeoutMs : Nat := 60000

/-- `uint64_t` subtraction `a - b` with wrap-around. -/
def u64sub (a b : Nat) : Nat :=
  (a % 2 ^ 64 + (2 ^ 64 - b % 2 ^ 64)) % 2 ^ 64

/-- Translation of `CleanupExpiredBuffers` (`memory_pool.cc` lines
102-113): `remove_if` erases every buffer with
`current_time - last_used_time > BUFFER_TIMEOUT_MS`; the kept buffers
are those satisfying the negation. -/
def cleanupExpiredBuffers (current_time : Nat) (pool : List BufferInfo) :
    List BufferInfo :=
  pool.filter fun b => u64sub current_time b.last_used_time ≤ bufferTimeoutMs

/-- Translation of the loop of `FindBestFitBuffer` (`memory_pool.cc`
lines 115-138): `i` is the running index, `best_idx`/`best_size` the
accumulator (``none`` plays the role of the `SIZE_MAX` sentinel); an
exact-size match returns immediately (the `break`). -/
def findBestFitAux (bufs : List BufferInfo) (i : Nat)
    (best_idx best_size : Option Nat) (required : Nat) : Option Nat :=
  match bufs with
  | [] => best_idx
  | b :: rest =>
    if required ≤ b.size ∧ (∀ s ∈ best_size, b.size < s) then
      if b.size = required then some i
      else findBestFitAux rest (i + 1) (some i) (some b.size) required
    else findBestFitAux rest (i + 1) best_idx best_size required

/-- Translation of `FindBestFitBuffer`: index of the best-fit idle
buffer, if any (`SIZE_MAX` rendered as ``none``). -/
def findBestFitBuffer (pool : List BufferInfo) (required : Nat) :
    Option Nat :=
  findBestFitAux pool 0 none none required

/-- Proof-side restructuring of the best-fit search: the first index of
the smallest fitting buffer, with its size. Proved equal to
`findBestFitAux` in `findBestFitAux_eq`. -/
def bestFitSearch (pool : List BufferInfo) (required : Nat) :
    Option (Nat × Nat) :=
  match pool with
  | [] => none
  | b :: rest =>
    match bestFitSearch rest required with
    | none => if required ≤ b.size then some (0, b.size) else none
    | some (j, s) =>
      if required ≤ b.size ∧ b.size ≤ s then some (0, b.size)
      else some (j + 1, s)

/-- Translation of `GetBuffer` (`memory_pool.cc` lines 19-58). The
result is `some capacity` when an idle buffer is reused and ``none``
when a fresh buffer of exactly `size` bytes is allocated, paired with
the state after the call. Cleanup runs first and stores the shrunken
count in the statistics; the best-fit branch removes the chosen buffer
and bumps `memory_reuse_count`; the allocation branch bumps
`total_buffers_created` and `total_memory_allocated` and refreshes
`peak_memory_usage` from the allocated total plus the idle sizes. -/
def getBuffer (current_time size : Nat) (st : PoolState) :
    Option Nat × PoolState :=
  let avail := cleanupExpiredBuffers current_time st.available
  let stats0 := { st.stats with available_buffers := avail.length }
  match findBestFitBuffer avail size with
  | some i =>
    let cap := (avail.getD i ⟨0, 0⟩).size
    let avail2 := avail.eraseIdx i
    (some cap,
     ⟨avail2,
      { stats0 with
        available_buffers := avail2.length
        memory_reuse_count := stats0.memory_reuse_count + 1 }⟩)
  | none =>
    let allocated := stats0.total_memory_allocated + size
    let current_memory := allocated + (avail.map (·.size)).sum
    (none,
     ⟨avail,
      { stats0 with
        total_buffers_created := stats0.total_buffers_created + 1
        total_memory_allocated := allocated
        peak_memory_usage :=
          max stats0.peak_memory_usage current_memory }⟩)

/-- The scan of `std::min_element` over `last_used_time` with a strict
comparator: first minimal element wins. `i` is the index of the next
element, `best_idx`/`best_time` the running minimum. -/
def minElemAux (l : List BufferInfo) (i best_idx best_time : Nat) : Nat :=
  match l with
  | [] => best_idx
  | b :: rest =>
    if b.last_used_time < best_time then
      minElemAux rest (i + 1) i b.last_used_time
    else minElemAux rest (i + 1) best_idx best_time

/-- Index of the least-recently-used idle buffer (the
`std::min_element` call of `ReturnBuffer`). -/
def minElementIdx : List BufferInfo → Option Nat
  | [] => none
  | b :: rest => some (minElemAux rest 1 0 b.last_used_time)

/-- Translation of `ReturnBuffer` (`memory_pool.cc` lines 60-89):
``none`` (a null buffer) is a no-op; otherwise, if the pool already
holds `MAX_POOL_SIZE` buffers the least-recently-used one is erased,
and the returned buffer is appended stamped with the current time. -/
def returnBuffer (current_time : Nat) (buffer : Option Nat)
    (st : PoolState) : PoolState :=
  match buffer with
  | none => st
  | some size =>
    let avail :=
      if maxPoolSize ≤ st.available.length then
        match minElementIdx st.available with
        | some i => st.available.eraseIdx i
        | none => st.available
      else st.available
    let avail2 := avail ++ [⟨size, current_time⟩]
    ⟨avail2, { st.stats with available_buffers := avail2.length }⟩

/-- One pool operation: a `GetBuffer` call or a `ReturnBuffer` call. -/
inductive PoolOp where
  | get (current_time size : Nat)
  | ret (current_time : Nat) (buffer : Option Nat)

/-- Apply one pool operation to the state. -/
def applyPoolOp (st : PoolState) : PoolOp → PoolState
  | .get now size => (getBuffer now size st).2
  | .ret now buffer => returnBuffer now buffer st

/-- Apply a sequence of pool operations starting from the given state. -/
def applyPoolOps (ops : List PoolOp) (st : PoolState) : PoolState :=
  ops.foldl applyPoolOp st

theorem bestFitSearch_fits (pool : List BufferInfo) (req : Nat) (j s : Nat)
    (h : bestFitSearch pool req = some (j, s)) : req ≤ s := by
  induction pool generalizing j s with
  | nil => simp [bestFitSearch] at h
  | cons b rest ih =>
    rcases hr : bestFitSearch rest req with _ | ⟨j0, s0⟩ <;>
      simp only [bestFitSearch, hr] at h
    · split at h
      · simp at h; omega
      · simp at h
    · split at h
      · simp at h; omega
      · simp at h
        obtain ⟨rfl, rfl⟩ := h
        exact ih j0 s0 hr

theorem bestFitSearch_none (pool : List BufferInfo) (req : Nat)
    (h : bestFitSearch pool req = none) : ∀ b ∈ pool, ¬ req ≤ b.size := by
  induction pool with
  | nil => simp
  | cons b rest ih =>
    rcases hr : bestFitSearch rest req with _ | ⟨j0, s0⟩ <;>
      simp only [bestFitSearch, hr] at h
    · split at h
      · simp at h
      · intro x hx
        rcases List.mem_cons.mp hx with rfl | hx
        · omega
        · exact ih hr x hx
    · split at h <;> simp at h

theorem bestFitSearch_spec (pool : List BufferInfo) (req : Nat) (j s : Nat)
    (h : bestFitSearch pool req = some (j, s)) :
    j < pool.length ∧ (pool.getD j ⟨0, 0⟩).size = s ∧ req ≤ s ∧
    (∀ b ∈ pool, req ≤ b.size → s ≤ b.size) ∧
    (∀ k, k < j → req ≤ (pool.getD k ⟨0, 0⟩).size →
      s < (pool.getD k ⟨0, 0⟩).size) := by
  induction pool generalizing j s with
  | nil => simp [bestFitSearch] at h
  | cons b rest ih =>
    rcases hr : bestFitSearch rest req with _ | ⟨j0, s0⟩ <;>
      simp only [bestFitSearch, hr] at h
    · split at h
      · simp at h
        obtain ⟨rfl, rfl⟩ := h
        refine ⟨by simp, rfl, by assumption, ?_, by omega⟩
        intro x hx hfit
        rcases List.mem_cons.mp hx with rfl | hx
        · exact le_refl _
        · exact absurd hfit (bestFitSearch_none rest req hr x hx)
      · simp at h
    · have IH := ih j0 s0 hr
      split at h
      · simp at h
        obtain ⟨rfl, rfl⟩ := h
        rename_i hcond
        refine ⟨by simp, rfl, hcond.1, ?_, by omega⟩
        intro x hx hfit
        rcases List.mem_cons.mp hx with rfl | hx
        · exact le_refl _
        · exact le_trans hcond.2 (IH.2.2.2.1 x hx hfit)
      · simp at h
        obtain ⟨rfl, rfl⟩ := h
        rename_i hcond
        push_neg at hcond
        refine ⟨by simp; omega, by simpa using IH.2.1, IH.2.2.1, ?_, ?_⟩
        · intro x hx hfit
          rcases List.mem_cons.mp hx with rfl | hx
          · exact le_of_lt (hcond hfit)
          · exact IH.2.2.2.1 x hx hfit
        · intro k hk hfit
          match k with
          | 0 => exact hcond (by simpa using hfit)
          | Nat.succ k' =>
            have := IH.2.2.2.2 k' (by omega) (by simpa using hfit)
            simpa using this


/-- Proof-side reading of the best-fit accumulator: the final result
given the search outcome of the remaining list. -/
def accResult (r : Option (Nat × Nat)) (i bi bs : Nat) : Option Nat :=
  match r with
  | none => some bi
  | some (j, s) => if s < bs then some (i + j) else some bi

theorem findBestFitAux_acc (l : List BufferInfo) (req : Nat) :
    ∀ i bi bs, findBestFitAux l i (some bi) (some bs) req =
      accResult (bestFitSearch l req) i bi bs := by
  induction l with
  | nil => intro i bi bs; rfl
  | cons b rest ih =>
    intro i bi bs
    by_cases hf : req ≤ b.size ∧ b.size < bs
    · have hcond : req ≤ b.size ∧ ∀ s ∈ (some bs : Option Nat), b.size < s :=
        ⟨hf.1, by simpa using hf.2⟩
      simp only [findBestFitAux, if_pos hcond]
      by_cases hex : b.size = req
      · rw [if_pos hex]
        rcases hr : bestFitSearch rest req with _ | ⟨j0, s0⟩
        · simp only [bestFitSearch, hr, if_pos hf.1, accResult]
          rw [if_pos hf.2]
          simp
        · have hs0 : req ≤ s0 := bestFitSearch_fits rest req j0 s0 hr
          simp only [bestFitSearch, hr,
            if_pos (show req ≤ b.size ∧ b.size ≤ s0 from ⟨hf.1, by omega⟩),
            accResult]
          rw [if_pos hf.2]
          simp
      · rw [if_neg hex, ih (i + 1) i b.size]
        rcases hr : bestFitSearch rest req with _ | ⟨j0, s0⟩
        · simp only [bestFitSearch, hr, if_pos hf.1, accResult]
          rw [if_pos hf.2]
          simp
        · by_cases hle : b.size ≤ s0
          · simp only [bestFitSearch, hr, if_pos (And.intro hf.1 hle),
              accResult]
            rw [if_neg (by omega), if_pos hf.2]
            simp
          · simp only [bestFitSearch, hr,
              if_neg (show ¬ (req ≤ b.size ∧ b.size ≤ s0) by tauto),
              accResult]
            rw [if_pos (by omega), if_pos (show s0 < bs by omega)]
            congr 1
            omega
    · rw [show findBestFitAux (b :: rest) i (some bi) (some bs) req =
          findBestFitAux rest (i + 1) (some bi) (some bs) req from by
        simp only [findBestFitAux]
        rw [if_neg (fun hc => hf ⟨hc.1, by simpa using hc.2⟩)]]
      rw [ih (i + 1) bi bs]
      rcases hr : bestFitSearch rest req with _ | ⟨j0, s0⟩
      · by_cases hfit : req ≤ b.size
        · simp only [bestFitSearch, hr, if_pos hfit, accResult]
          rw [if_neg (fun hlt => hf ⟨hfit, hlt⟩)]
        · simp only [bestFitSearch, hr, if_neg hfit, accResult]
      · by_cases hcond2 : req ≤ b.size ∧ b.size ≤ s0
        · simp only [bestFitSearch, hr, if_pos hcond2, accResult]
          have h1 : ¬ b.size < bs := fun hlt => hf ⟨hcond2.1, hlt⟩
          rw [if_neg (by omega), if_neg h1]
        · simp only [bestFitSearch, hr, if_neg hcond2, accResult]
          by_cases h3 : s0 < bs
          · rw [if_pos h3, if_pos h3]
            congr 1
            omega
          · rw [if_neg h3, if_neg h3]

theorem findBestFitAux_none_acc (l : List BufferInfo) (req : Nat) :
    ∀ i, findBestFitAux l i none none req =
      (bestFitSearch l req).map (fun p => i + p.1) := by
  induction l with
  | nil => intro i; rfl
  | cons b rest ih =>
    intro i
    by_cases hfit : req ≤ b.size
    · have hcond : req ≤ b.size ∧ ∀ s ∈ (none : Option Nat), b.size < s :=
        ⟨hfit, by simp⟩
      simp only [findBestFitAux, if_pos hcond]
      by_cases hex : b.size = req
      · rw [if_pos hex]
        rcases hr : bestFitSearch rest req with _ | ⟨j0, s0⟩
        · simp [bestFitSearch, hr, if_pos hfit]
        · have hs0 : req ≤ s0 := bestFitSearch_fits rest req j0 s0 hr
          simp [bestFitSearch, hr,
            if_pos (show req ≤ b.size ∧ b.size ≤ s0 from ⟨hfit, by omega⟩)]
      · rw [if_neg hex, findBestFitAux_acc rest req (i + 1) i b.size]
        rcases hr : bestFitSearch rest req with _ | ⟨j0, s0⟩
        · simp [bestFitSearch, hr, if_pos hfit, accResult]
        · by_cases hle : b.size ≤ s0
          · simp only [bestFitSearch, hr, if_pos (And.intro hfit hle),
              accResult]
            rw [if_neg (by omega)]
            simp
          · simp only [bestFitSearch, hr,
              if_neg (show ¬ (req ≤ b.size ∧ b.size ≤ s0) by tauto),
              accResult]
            rw [if_pos (by omega)]
            simp
            omega
    · rw [show findBestFitAux (b :: rest) i none none req =
          findBestFitAux rest (i + 1) none none req from by
        simp only [findBestFitAux]
        rw [if_neg (fun hc => hfit hc.1)]]
      rw [ih (i + 1)]
      rcases hr : bestFitSearch rest req with _ | ⟨j0, s0⟩
      · simp [bestFitSearch, hr, if_neg hfit]
      · simp only [bestFitSearch, hr,
          if_neg (show ¬ (req ≤ b.size ∧ b.size ≤ s0) by tauto)]
        simp
        omega

theorem findBestFitBuffer_spec (pool : List BufferInfo) (req : Nat) :
    findBestFitBuffer pool req = (bestFitSearch pool req).map (·.1) := by
  rw [findBestFitBuffer, findBestFitAux_none_acc pool req 0]
  rcases bestFitSearch pool req with _ | ⟨j, s⟩ <;> simp

theorem minElemAux_spec (l : List BufferInfo) :
    ∀ i bi bt,
      (minElemAux l i bi bt = bi ∧ ∀ b ∈ l, bt ≤ b.last_used_time) ∨
      (∃ k, k < l.length ∧ minElemAux l i bi bt = i + k ∧
        (l.getD k ⟨0, 0⟩).last_used_time ≤ bt ∧
        ∀ b ∈ l, (l.getD k ⟨0, 0⟩).last_used_time ≤ b.last_used_time) := by
  induction l with
  | nil =>
    intro i bi bt
    left
    exact ⟨rfl, by simp⟩
  | cons c rest ih =>
    intro i bi bt
    simp only [minElemAux]
    by_cases hc : c.last_used_time < bt
    · rw [if_pos hc]
      rcases ih (i + 1) i c.last_used_time with ⟨heq, hall⟩ |
        ⟨k, hk, heq, hle, hall⟩
      · right
        refine ⟨0, by simp, by simpa using heq, by simpa using le_of_lt hc,
          ?_⟩
        intro b hb
        rcases List.mem_cons.mp hb with rfl | hb
        · simp
        · simpa using hall b hb
      · right
        refine ⟨k + 1, by simpa using hk, by rw [heq]; omega, ?_, ?_⟩
        · simp only [List.getD_cons_succ]
          omega
        · intro b hb
          rcases List.mem_cons.mp hb with rfl | hb
          · simp only [List.getD_cons_succ]
            omega
          · simp only [List.getD_cons_succ]
            exact hall b hb
    · rw [if_neg hc]
      rcases ih (i + 1) bi bt with ⟨heq, hall⟩ | ⟨k, hk, heq, hle, hall⟩
      · left
        refine ⟨heq, ?_⟩
        intro b hb
        rcases List.mem_cons.mp hb with rfl | hb
        · omega
        · exact hall b hb
      · right
        refine ⟨k + 1, by simpa using hk, by rw [heq]; omega, ?_, ?_⟩
        · simp only [List.getD_cons_succ]
          exact hle
        · intro b hb
          rcases List.mem_cons.mp hb with rfl | hb
          · simp only [List.getD_cons_succ]
            omega
          · simp only [List.getD_cons_succ]
            exact hall b hb

theorem minElementIdx_spec (l : List BufferInfo) (hne : l ≠ []) :
    ∃ i, minElementIdx l = some i ∧ i < l.length ∧
      ∀ b ∈ l, (l.getD i ⟨0, 0⟩).last_used_time ≤ b.last_used_time := by
  match l, hne with
  | c :: rest, _ =>
    simp only [minElementIdx]
    rcases minElemAux_spec rest 1 0 c.last_used_time with ⟨heq, hall⟩ |
      ⟨k, hk, heq, hle, hall⟩
    · refine ⟨0, by rw [heq], by simp, ?_⟩
      intro b hb
      rcases List.mem_cons.mp hb with rfl | hb
      · simp
      · simpa using hall b hb
    · refine ⟨1 + k, by rw [heq], by simp; omega, ?_⟩
      intro b hb
      have hgd : ((c :: rest).getD (1 + k) ⟨0, 0⟩) = rest.getD k ⟨0, 0⟩ := by
        rw [show 1 + k = k + 1 by omega]
        simp [List.getD_cons_succ]
      rw [hgd]
      rcases List.mem_cons.mp hb with rfl | hb
      · omega
      · exact hall b hb

theorem getBuffer_available_mem (now sz : Nat) (st : PoolState) :
    ∀ b ∈ (getBuffer now sz st).2.available,
      b ∈ cleanupExpiredBuffers now st.available := by
  intro b hb
  rcases hfb : findBestFitBuffer (cleanupExpiredBuffers now st.available) sz
    with _ | i <;> simp only [getBuffer, hfb] at hb
  · exact hb
  · exact List.mem_of_mem_eraseIdx hb

theorem getBuffer_available_len (now sz : Nat) (st : PoolState) :
    (getBuffer now sz st).2.available.length ≤ st.available.length := by
  rcases hfb : findBestFitBuffer (cleanupExpiredBuffers now st.available) sz
    with _ | i <;> simp only [getBuffer, hfb]
  · exact List.length_filter_le _ _
  · exact le_trans (List.length_eraseIdx_le _ _) (List.length_filter_le _ _)

theorem returnBuffer_len (now : Nat) (buf : Option Nat) (st : PoolState)
    (h : st.available.length ≤ maxPoolSize) :
    (returnBuffer now buf st).available.length ≤ maxPoolSize := by
  rcases buf with _ | sz
  · exact h
  · simp only [returnBuffer]
    by_cases hfull : maxPoolSize ≤ st.available.length
    · rw [if_pos hfull]
      have hne : st.available ≠ [] := by
        intro hnil
        rw [hnil] at hfull
        simp [maxPoolSize] at hfull
      obtain ⟨i, hmin, hlt, -⟩ := minElementIdx_spec st.available hne
      rw [hmin]
      simp only [List.length_append, List.length_singleton,
        List.length_eraseIdx_of_lt hlt]
      simp [maxPoolSize] at *
      omega
    · rw [if_neg hfull]
      simp only [List.length_append, List.length_singleton]
      simp [maxPoolSize] at *
      omega

theorem applyPoolOp_len (st : PoolState) (op : PoolOp)
    (h : st.available.length ≤ maxPoolSize) :
    (applyPoolOp st op).available.length ≤ maxPoolSize := by
  cases op with
  | get now sz => exact le_trans (getBuffer_available_len now sz st) h
  | ret now buf => exact returnBuffer_len now buf st h

theorem applyPoolOps_len (ops : List PoolOp) :
    ∀ st : PoolState, st.available.length ≤ maxPoolSize →
      (applyPoolOps ops st).available.length ≤ maxPoolSize := by
  induction ops with
  | nil =>
    intro st h
    exact h
  | cons op rest ih =>
    intro st h
    simp only [applyPoolOps, List.foldl_cons]
    exact ih (applyPoolOp st op) (applyPoolOp_len st op h)

/-- C7: if, after the timeout purge, some idle buffer can satisfy the
request, then `GetBuffer` returns a pooled buffer (never allocates),
increments `memory_reuse_count`, leaves `total_buffers_created`
unchanged, removes the chosen buffer from the idle list, and the chosen
capacity is the minimum among all idle buffers that fit; ties are broken
by the first match (every fitting buffer at a smaller index than the
chosen one is strictly larger), which also subsumes the exact-match
short-circuit of the search loop. -/
theorem getBuffer_best_fit (now req : Nat) (st : PoolState)
    (h : ∃ b ∈ cleanupExpiredBuffers now st.available, req ≤ b.size) :
    ∃ i cap,
      findBestFitBuffer (cleanupExpiredBuffers now st.available) req =
        some i ∧
      cap = ((cleanupExpiredBuffers now st.available).getD i ⟨0, 0⟩).size ∧
      (getBuffer now req st).1 = some cap ∧
      req ≤ cap ∧
      (getBuffer now req st).2.stats.memory_reuse_count =
        st.stats.memory_reuse_count + 1 ∧
      (getBuffer now req st).2.stats.total_buffers_created =
        st.stats.total_buffers_created ∧
      (getBuffer now req st).2.available =
        (cleanupExpiredBuffers now st.available).eraseIdx i ∧
      (∀ b ∈ cleanupExpiredBuffers now st.available, req ≤ b.size →
        cap ≤ b.size) ∧
      (∀ k, k < i →
        req ≤ ((cleanupExpiredBuffers now st.available).getD k ⟨0, 0⟩).size →
        cap < ((cleanupExpiredBuffers now st.available).getD k ⟨0, 0⟩).size)
    := by
  obtain ⟨b0, hb0, hfit0⟩ := h
  rcases hbs : bestFitSearch (cleanupExpiredBuffers now st.available) req
    with _ | ⟨j, s⟩
  · exact absurd hfit0
      (bestFitSearch_none (cleanupExpiredBuffers now st.available) req hbs
        b0 hb0)
  · have hspec := bestFitSearch_spec
      (cleanupExpiredBuffers now st.available) req j s hbs
    have hfb : findBestFitBuffer (cleanupExpiredBuffers now st.available)
        req = some j := by
      rw [findBestFitBuffer_spec, hbs]
      rfl
    refine ⟨j, ((cleanupExpiredBuffers now st.available).getD j ⟨0, 0⟩).size,
      hfb, rfl, ?_, ?_, ?_, ?_, ?_, ?_, ?_⟩ <;>
      simp only [getBuffer, hfb, hspec.2.1]
    · exact hspec.2.2.1
    · exact hspec.2.2.2.1
    · intro k hk hfit
      exact hspec.2.2.2.2 k hk hfit

/-- Witness for C7 at a concrete pool: one idle 100-byte buffer, request
of 50 bytes; the call reuses the pooled buffer and bumps the reuse
counter. -/
theorem getBuffer_best_fit_witness :
    ∃ cap,
      (getBuffer 0 50 ⟨[⟨100, 0⟩], ⟨1, 1, 100, 100, 0⟩⟩).1 = some cap ∧
      50 ≤ cap ∧
      (getBuffer 0 50
        ⟨[⟨100, 0⟩], ⟨1, 1, 100, 100, 0⟩⟩).2.stats.memory_reuse_count = 1 ∧
      (getBuffer 0 50
        ⟨[⟨100, 0⟩], ⟨1, 1, 100, 100, 0⟩⟩).2.stats.total_buffers_created
        = 1 := by
  obtain ⟨i, cap, h1, h2, h3, h4, h5, h6, h7, h8, h9⟩ :=
    getBuffer_best_fit 0 50 ⟨[⟨100, 0⟩], ⟨1, 1, 100, 100, 0⟩⟩
      ⟨⟨100, 0⟩, by decide, by decide⟩
  exact ⟨cap, h3, h4, by simpa using h5, by simpa using h6⟩

/-- C8: (1) starting from the empty pool, any sequence of `GetBuffer`
and `ReturnBuffer` operations leaves at most `MAX_POOL_SIZE` (10) idle
buffers; (2) whenever the pool is full, `ReturnBuffer` first evicts an
idle buffer whose `last_used_time` is minimal (the least-recently-used
one) and then appends the returned buffer stamped with the current
time; (3) for every pool state and every `GetBuffer` call, the call
purges idle buffers unused for more than `BUFFER_TIMEOUT_MS` before
searching, so immediately after any `GetBuffer` call no idle buffer has
been unused longer than the timeout. -/
theorem pool_invariants (ops : List PoolOp) (now sz req : Nat)
    (st : PoolState) :
    (applyPoolOps ops initialPool).available.length ≤ maxPoolSize ∧
    (maxPoolSize ≤ st.available.length →
      ∃ i, minElementIdx st.available = some i ∧ i < st.available.length ∧
        (∀ b ∈ st.available,
          (st.available.getD i ⟨0, 0⟩).last_used_time ≤
            b.last_used_time) ∧
        (returnBuffer now (some sz) st).available =
          st.available.eraseIdx i ++ [⟨sz, now⟩]) ∧
    (∀ b ∈ (getBuffer now req st).2.available,
      u64sub now b.last_used_time ≤ bufferTimeoutMs) := by
  refine ⟨applyPoolOps_len ops initialPool (by simp [initialPool]), ?_, ?_⟩
  · intro hfull
    have hne : st.available ≠ [] := by
      intro hnil
      rw [hnil] at hfull
      simp [maxPoolSize] at hfull
    obtain ⟨i, hmin, hlt, hminall⟩ := minElementIdx_spec st.available hne
    refine ⟨i, hmin, hlt, hminall, ?_⟩
    simp only [returnBuffer, if_pos hfull, hmin]
  · intro b hb
    have hmem := getBuffer_available_mem now req st b hb
    simp only [cleanupExpiredBuffers, List.mem_filter,
      decide_eq_true_eq] at hmem
    exact hmem.2

/-- Witness for C8 at a concrete full pool (ten idle buffers with equal
timestamps): the returned buffer evicts the first minimal entry and is
appended; a fresh pool stays within the bound. -/
theorem pool_invariants_witness :
    (applyPoolOps [PoolOp.ret 1 (some 5)] initialPool).available.length ≤
      maxPoolSize ∧
    ∃ i, minElementIdx (List.replicate 10 (⟨4, 2⟩ : BufferInfo)) =
        some i ∧
      (returnBuffer 7 (some 3)
        ⟨List.replicate 10 ⟨4, 2⟩, ⟨0, 0, 0, 0, 0⟩⟩).available =
        (List.replicate 10 (⟨4, 2⟩ : BufferInfo)).eraseIdx i ++
          [⟨3, 7⟩] := by
  obtain ⟨h1, h2, h3⟩ :=
    pool_invariants [PoolOp.ret 1 (some 5)] 7 3 0
      ⟨List.replicate 10 ⟨4, 2⟩, ⟨0, 0, 0, 0, 0⟩⟩
  obtain ⟨i, hmin, hlt, hall, herase⟩ := h2 (by decide)
  exact ⟨h1, i, hmin, herase⟩

/-! ## The Tiler (`UltraStreamingPipeline::CreateChunks`,
`ultra_streaming_pipeline.cc` lines 381-423).

The nested `for (y) for (x)` loop is rendered as a `flatMap` over the
row indices of a `map` over the column indices; the incrementing
`chunk_id` counter equals `y * chunks_x + x` at iteration `(x, y)`. The
screenshot pixel buffer is a byte function, and the row-copy loop that
fills `chunk.pixel_data` is rendered as the corresponding list of read
bytes. -/

/-- `StreamingChunk` (`ultra_streaming_pipeline.cc` lines 55-64). -/
structure StreamingChunk where
  pixel_data : List Nat
  width : Nat
  height : Nat
  stride : Nat
  x_offset : Nat
  y_offset : Nat
  chunk_id : Nat
  is_final_chunk : Bool
  deriving Repr, DecidableEq

/-- The chunk built by one iteration of the `CreateChunks` loop body at
column `x`, row `y` (`chunks_x = cx`, `chunks_y = cy`). -/
def mkStreamingChunk (W H Tw Th bpp cx cy : Nat) (data : Nat → Nat)
    (srcStride : Nat) (x y id : Nat) : StreamingChunk where
  x_offset := x * Tw
  y_offset := y * Th
  width := min Tw (W - x * Tw)
  height := min Th (H - y * Th)
  stride := min Tw (W - x * Tw) * bpp
  chunk_id := id
  is_final_chunk := decide (x = cx - 1 ∧ y = cy - 1)
  pixel_data :=
    (List.range (min Th (H - y * Th))).flatMap fun row =>
      (List.range (min Tw (W - x * Tw) * bpp)).map fun t =>
        data ((y * Th + row) * srcStride + x * Tw * bpp + t)

/-- Translation of `UltraStreamingPipeline::CreateChunks`. -/
def createChunks (W H Tw Th bpp : Nat) (data : Nat → Nat)
    (srcStride : Nat) : List StreamingChunk :=
  let cx := (W + Tw - 1) / Tw
  let cy := (H + Th - 1) / Th
  (List.range cy).flatMap fun y =>
    (List.range cx).map fun x =>
      mkStreamingChunk W H Tw Th bpp cx cy data srcStride x y (y * cx + x)

/-- Whether pixel `(px, py)` lies inside the rectangle of a chunk. -/
def chunkContains (c : StreamingChunk) (px py : Nat) : Prop :=
  c.x_offset ≤ px ∧ px < c.x_offset + c.width ∧
  c.y_offset ≤ py ∧ py < c.y_offset + c.height

instance (c : StreamingChunk) (px py : Nat) :
    Decidable (chunkContains c px py) := by
  unfold chunkContains
  infer_instance

theorem flatMapRange_length {α : Type} (f : Nat → Nat → α)
    (cy cx : Nat) :
    ((List.range cy).flatMap fun y => (List.range cx).map (f y)).length =
      cy * cx := by
  induction cy with
  | zero => simp
  | succ n ih =>
    rw [List.range_succ, List.flatMap_append]
    simp only [List.length_append, ih, List.flatMap_cons, List.flatMap_nil,
      List.append_nil, List.length_map, List.length_range]
    rw [Nat.succ_mul]

theorem flatMapRange_getElem {α : Type} (f : Nat → Nat → α)
    (cy cx k : Nat) (hcx : 0 < cx) (hk : k < cy * cx) :
    ((List.range cy).flatMap fun y => (List.range cx).map (f y))[k]? =
      some (f (k / cx) (k % cx)) := by
  induction cy with
  | zero => omega
  | succ n ih =>
    rw [List.range_succ, List.flatMap_append]
    by_cases h : k < n * cx
    · rw [List.getElem?_append_left (by rw [flatMapRange_length]; exact h)]
      exact ih h
    · have hsm : (n + 1) * cx = n * cx + cx := by ring
      rw [List.getElem?_append_right (by rw [flatMapRange_length]; omega)]
      rw [flatMapRange_length]
      simp only [List.flatMap_cons, List.flatMap_nil, List.append_nil]
      rw [List.getElem?_map]
      have hlt : k - n * cx < cx := by omega
      rw [List.getElem?_range hlt]
      have hform : k = cx * n + (k - n * cx) := by
        have : cx * n = n * cx := Nat.mul_comm cx n
        omega
      have h1 : k / cx = n := by
        rw [hform, Nat.mul_add_div hcx, Nat.div_eq_of_lt hlt]
        omega
      have h2 : k % cx = k - n * cx := by
        conv_lhs => rw [hform]
        rw [Nat.mul_add_mod, Nat.mod_eq_of_lt hlt]
      rw [h1, h2]
      rfl

theorem ceil_div_mul_ge (W Tw : Nat) (hTw : 0 < Tw) :
    W ≤ (W + Tw - 1) / Tw * Tw := by
  have e := Nat.div_add_mod (W + Tw - 1) Tw
  have hr : (W + Tw - 1) % Tw < Tw := Nat.mod_lt _ hTw
  have hcomm : Tw * ((W + Tw - 1) / Tw) = (W + Tw - 1) / Tw * Tw :=
    Nat.mul_comm _ _
  omega

theorem lt_ceil_div_mul (W Tw x : Nat) (hTw : 0 < Tw)
    (hx : x < (W + Tw - 1) / Tw) : x * Tw < W := by
  have e := Nat.div_add_mod (W + Tw - 1) Tw
  have hr : (W + Tw - 1) % Tw < Tw := Nat.mod_lt _ hTw
  have hcomm : Tw * ((W + Tw - 1) / Tw) = (W + Tw - 1) / Tw * Tw :=
    Nat.mul_comm _ _
  have hmono : (x + 1) * Tw ≤ (W + Tw - 1) / Tw * Tw :=
    Nat.mul_le_mul_right Tw (by omega)
  have hd : (x + 1) * Tw = x * Tw + Tw := by ring
  omega

theorem ceil_div_pos (W Tw : Nat) (hW : 0 < W) (hTw : 0 < Tw) :
    0 < (W + Tw - 1) / Tw := by
  apply Nat.div_pos (by omega) hTw

theorem createChunks_getElem (W H Tw Th bpp srcStride : Nat)
    (data : Nat → Nat) (k : Nat) (hTw : 0 < Tw) (hW : 0 < W)
    (hk : k < ((H + Th - 1) / Th) * ((W + Tw - 1) / Tw)) :
    (createChunks W H Tw Th bpp data srcStride)[k]? =
      some (mkStreamingChunk W H Tw Th bpp ((W + Tw - 1) / Tw)
        ((H + Th - 1) / Th) data srcStride (k % ((W + Tw - 1) / Tw))
        (k / ((W + Tw - 1) / Tw)) k) := by
  have hcx : 0 < (W + Tw - 1) / Tw := ceil_div_pos W Tw hW (by omega)
  simp only [createChunks]
  rw [flatMapRange_getElem _ _ _ _ hcx hk]
  have hdm : k / ((W + Tw - 1) / Tw) * ((W + Tw - 1) / Tw) +
      k % ((W + Tw - 1) / Tw) = k := Nat.div_add_mod' k _
  rw [hdm]

theorem createChunks_length (W H Tw Th bpp srcStride : Nat)
    (data : Nat → Nat) :
    (createChunks W H Tw Th bpp data srcStride).length =
      ((W + Tw - 1) / Tw) * ((H + Th - 1) / Th) := by
  simp only [createChunks]
  rw [flatMapRange_length]
  exact Nat.mul_comm _ _

theorem createChunks_fields (W H Tw Th bpp srcStride : Nat)
    (data : Nat → Nat) (k : Nat) (c : StreamingChunk)
    (hW : 0 < W) (hH : 0 < H) (hTw : 0 < Tw) (hTh : 0 < Th)
    (hc : (createChunks W H Tw Th bpp data srcStride)[k]? = some c) :
    c.chunk_id = k ∧
    c.x_offset = k % ((W + Tw - 1) / Tw) * Tw ∧
    c.y_offset = k / ((W + Tw - 1) / Tw) * Th ∧
    c.width = min Tw (W - c.x_offset) ∧
    c.height = min Th (H - c.y_offset) ∧
    0 < c.width ∧ 0 < c.height ∧
    c.x_offset + c.width ≤ W ∧ c.y_offset + c.height ≤ H ∧
    (c.is_final_chunk = true ↔
      k = ((W + Tw - 1) / Tw) * ((H + Th - 1) / Th) - 1) := by
  have hcx : 0 < (W + Tw - 1) / Tw := ceil_div_pos W Tw hW hTw
  have hcy : 0 < (H + Th - 1) / Th := ceil_div_pos H Th hH hTh
  have hk : k < ((H + Th - 1) / Th) * ((W + Tw - 1) / Tw) := by
    by_contra hge
    rw [List.getElem?_eq_none (by
      rw [createChunks_length]
      have hcomm : (W + Tw - 1) / Tw * ((H + Th - 1) / Th) =
        (H + Th - 1) / Th * ((W + Tw - 1) / Tw) := Nat.mul_comm _ _
      omega)] at hc
    cases hc
  rw [createChunks_getElem W H Tw Th bpp srcStride data k hTw hW hk] at hc
  have hceq := Option.some.inj hc
  subst hceq
  have hxlt : k % ((W + Tw - 1) / Tw) < (W + Tw - 1) / Tw :=
    Nat.mod_lt _ hcx
  have hylt : k / ((W + Tw - 1) / Tw) < (H + Th - 1) / Th :=
    (Nat.div_lt_iff_lt_mul hcx).mpr hk
  have hxw : k % ((W + Tw - 1) / Tw) * Tw < W :=
    lt_ceil_div_mul W Tw _ hTw hxlt
  have hyh : k / ((W + Tw - 1) / Tw) * Th < H :=
    lt_ceil_div_mul H Th _ hTh hylt
  simp only [mkStreamingChunk]
  refine ⟨by trivial, by trivial, by trivial, by trivial, by trivial,
    by omega, by omega, by omega, by omega, ?_⟩
  rw [decide_eq_true_iff]
  have ed := Nat.div_add_mod k ((W + Tw - 1) / Tw)
  have hexp : (W + Tw - 1) / Tw * ((H + Th - 1) / Th) =
      (W + Tw - 1) / Tw * ((H + Th - 1) / Th - 1) + (W + Tw - 1) / Tw := by
    have h1 : (H + Th - 1) / Th - 1 + 1 = (H + Th - 1) / Th := by omega
    calc (W + Tw - 1) / Tw * ((H + Th - 1) / Th)
        = (W + Tw - 1) / Tw * ((H + Th - 1) / Th - 1 + 1) := by rw [h1]
      _ = (W + Tw - 1) / Tw * ((H + Th - 1) / Th - 1) +
          (W + Tw - 1) / Tw := by ring
  constructor
  · rintro ⟨hx, hy⟩
    rw [hy] at ed
    omega
  · intro hklast
    have hkform : k = (W + Tw - 1) / Tw * ((H + Th - 1) / Th - 1) +
        ((W + Tw - 1) / Tw - 1) := by omega
    constructor
    · rw [hkform, Nat.mul_add_mod,
        Nat.mod_eq_of_lt (show (W + Tw - 1) / Tw - 1 < (W + Tw - 1) / Tw
          by omega)]
    · rw [hkform, Nat.mul_add_div hcx,
        Nat.div_eq_of_lt (show (W + Tw - 1) / Tw - 1 < (W + Tw - 1) / Tw
          by omega)]
      omega

theorem createChunks_cover (W H Tw Th bpp srcStride : Nat)
    (data : Nat → Nat) (px py : Nat)
    (hW : 0 < W) (hH : 0 < H) (hTw : 0 < Tw) (hTh : 0 < Th)
    (hpx : px < W) (hpy : py < H) :
    ∃ (k : Nat) (c : StreamingChunk),
      (createChunks W H Tw Th bpp data srcStride)[k]? = some c ∧
      chunkContains c px py := by
  have hcx : 0 < (W + Tw - 1) / Tw := ceil_div_pos W Tw hW hTw
  have hcy : 0 < (H + Th - 1) / Th := ceil_div_pos H Th hH hTh
  have hb : px / Tw < (W + Tw - 1) / Tw := by
    rw [Nat.div_lt_iff_lt_mul hTw]
    exact lt_of_lt_of_le hpx (ceil_div_mul_ge W Tw hTw)
  have ha : py / Th < (H + Th - 1) / Th := by
    rw [Nat.div_lt_iff_lt_mul hTh]
    exact lt_of_lt_of_le hpy (ceil_div_mul_ge H Th hTh)
  have hk : py / Th * ((W + Tw - 1) / Tw) + px / Tw <
      ((H + Th - 1) / Th) * ((W + Tw - 1) / Tw) := by
    have hmono : (py / Th + 1) * ((W + Tw - 1) / Tw) ≤
        ((H + Th - 1) / Th) * ((W + Tw - 1) / Tw) :=
      Nat.mul_le_mul_right _ (by omega)
    have hd : (py / Th + 1) * ((W + Tw - 1) / Tw) =
        py / Th * ((W + Tw - 1) / Tw) + (W + Tw - 1) / Tw := by ring
    omega
  refine ⟨py / Th * ((W + Tw - 1) / Tw) + px / Tw, _,
    createChunks_getElem W H Tw Th bpp srcStride data _ hTw hW hk, ?_⟩
  have hform : py / Th * ((W + Tw - 1) / Tw) + px / Tw =
      (W + Tw - 1) / Tw * (py / Th) + px / Tw := by ring
  have hmod : (py / Th * ((W + Tw - 1) / Tw) + px / Tw) %
      ((W + Tw - 1) / Tw) = px / Tw := by
    rw [hform, Nat.mul_add_mod, Nat.mod_eq_of_lt hb]
  have hdiv : (py / Th * ((W + Tw - 1) / Tw) + px / Tw) /
      ((W + Tw - 1) / Tw) = py / Th := by
    rw [hform, Nat.mul_add_div hcx, Nat.div_eq_of_lt hb]
    omega
  simp only [chunkContains, mkStreamingChunk, hmod, hdiv]
  have ex := Nat.div_add_mod px Tw
  have ey := Nat.div_add_mod py Th
  have hcx2 : Tw * (px / Tw) = px / Tw * Tw := Nat.mul_comm _ _
  have hcy2 : Th * (py / Th) = py / Th * Th := Nat.mul_comm _ _
  have hrx : px % Tw < Tw := Nat.mod_lt _ hTw
  have hry : py % Th < Th := Nat.mod_lt _ hTh
  refine ⟨by omega, by omega, by omega, by omega⟩

theorem createChunks_disjoint (W H Tw Th bpp srcStride : Nat)
    (data : Nat → Nat) (k1 k2 : Nat) (c1 c2 : StreamingChunk)
    (hW : 0 < W) (_hH : 0 < H) (hTw : 0 < Tw) (hTh : 0 < Th)
    (hc1 : (createChunks W H Tw Th bpp data srcStride)[k1]? = some c1)
    (hc2 : (createChunks W H Tw Th bpp data srcStride)[k2]? = some c2)
    (hne : k1 ≠ k2) (px py : Nat) :
    ¬ (chunkContains c1 px py ∧ chunkContains c2 px py) := by
  have hcx : 0 < (W + Tw - 1) / Tw := ceil_div_pos W Tw hW hTw
  have hcomm2 : (W + Tw - 1) / Tw * ((H + Th - 1) / Th) =
      (H + Th - 1) / Th * ((W + Tw - 1) / Tw) := Nat.mul_comm _ _
  have hk1 : k1 < ((H + Th - 1) / Th) * ((W + Tw - 1) / Tw) := by
    by_contra hge
    rw [List.getElem?_eq_none (by rw [createChunks_length]; omega)] at hc1
    cases hc1
  have hk2 : k2 < ((H + Th - 1) / Th) * ((W + Tw - 1) / Tw) := by
    by_contra hge
    rw [List.getElem?_eq_none (by rw [createChunks_length]; omega)] at hc2
    cases hc2
  rw [createChunks_getElem W H Tw Th bpp srcStride data k1 hTw hW hk1]
    at hc1
  rw [createChunks_getElem W H Tw Th bpp srcStride data k2 hTw hW hk2]
    at hc2
  have h1 := Option.some.inj hc1
  have h2 := Option.some.inj hc2
  subst h1
  subst h2
  rintro ⟨hp1, hp2⟩
  simp only [chunkContains, mkStreamingChunk] at hp1 hp2
  have hd1 := Nat.div_add_mod k1 ((W + Tw - 1) / Tw)
  have hd2 := Nat.div_add_mod k2 ((W + Tw - 1) / Tw)
  have hxy : k1 % ((W + Tw - 1) / Tw) ≠ k2 % ((W + Tw - 1) / Tw) ∨
      k1 / ((W + Tw - 1) / Tw) ≠ k2 / ((W + Tw - 1) / Tw) := by
    by_contra hboth
    push_neg at hboth
    apply hne
    rw [← hd1, ← hd2, hboth.1, hboth.2]
  rcases hxy with hx | hy
  · rcases Nat.lt_or_ge (k1 % ((W + Tw - 1) / Tw))
      (k2 % ((W + Tw - 1) / Tw)) with hlt | hge
    · have hmono : (k1 % ((W + Tw - 1) / Tw) + 1) * Tw ≤
          k2 % ((W + Tw - 1) / Tw) * Tw :=
        Nat.mul_le_mul_right _ (by omega)
      have hd : (k1 % ((W + Tw - 1) / Tw) + 1) * Tw =
          k1 % ((W + Tw - 1) / Tw) * Tw + Tw := by ring
      omega
    · have hlt2 : k2 % ((W + Tw - 1) / Tw) < k1 % ((W + Tw - 1) / Tw) := by
        omega
      have hmono : (k2 % ((W + Tw - 1) / Tw) + 1) * Tw ≤
          k1 % ((W + Tw - 1) / Tw) * Tw :=
        Nat.mul_le_mul_right _ (by omega)
      have hd : (k2 % ((W + Tw - 1) / Tw) + 1) * Tw =
          k2 % ((W + Tw - 1) / Tw) * Tw + Tw := by ring
      omega
  · rcases Nat.lt_or_ge (k1 / ((W + Tw - 1) / Tw))
      (k2 / ((W + Tw - 1) / Tw)) with hlt | hge
    · have hmono : (k1 / ((W + Tw - 1) / Tw) + 1) * Th ≤
          k2 / ((W + Tw - 1) / Tw) * Th :=
        Nat.mul_le_mul_right _ (by omega)
      have hd : (k1 / ((W + Tw - 1) / Tw) + 1) * Th =
          k1 / ((W + Tw - 1) / Tw) * Th + Th := by ring
      omega
    · have hlt2 : k2 / ((W + Tw - 1) / Tw) < k1 / ((W + Tw - 1) / Tw) := by
        omega
      have hmono : (k2 / ((W + Tw - 1) / Tw) + 1) * Th ≤
          k1 / ((W + Tw - 1) / Tw) * Th :=
        Nat.mul_le_mul_right _ (by omega)
      have hd : (k2 / ((W + Tw - 1) / Tw) + 1) * Th =
          k2 / ((W + Tw - 1) / Tw) * Th + Th := by ring
      omega

/-- C1: for a frame of positive dimensions and tile sizes of at least
64 (the `SetChunkSize` clamp), `CreateChunks` produces exactly
`ceil(W/Tw) * ceil(H/Th)` chunks; the chunk at position `k` of the
output list carries `chunk_id = k` and the row-major rectangle
`(x_offset, y_offset) = ((k mod cx) * Tw, (k div cx) * Th)` clipped to
the frame boundary; every frame pixel lies in some chunk; distinct
chunks never share a pixel; and a chunk has `is_final_chunk` set exactly
when it is the last chunk in row-major order. -/
theorem tiler_spec (W H Tw Th bpp srcStride : Nat) (data : Nat → Nat)
    (hW : 0 < W) (hH : 0 < H) (hTw : 64 ≤ Tw) (hTh : 64 ≤ Th) :
    (createChunks W H Tw Th bpp data srcStride).length =
      ((W + Tw - 1) / Tw) * ((H + Th - 1) / Th) ∧
    (∀ k c, (createChunks W H Tw Th bpp data srcStride)[k]? = some c →
      c.chunk_id = k ∧
      c.x_offset = k % ((W + Tw - 1) / Tw) * Tw ∧
      c.y_offset = k / ((W + Tw - 1) / Tw) * Th ∧
      c.width = min Tw (W - c.x_offset) ∧
      c.height = min Th (H - c.y_offset) ∧
      0 < c.width ∧ 0 < c.height ∧
      c.x_offset + c.width ≤ W ∧ c.y_offset + c.height ≤ H ∧
      (c.is_final_chunk = true ↔
        k = (createChunks W H Tw Th bpp data srcStride).length - 1)) ∧
    (∀ px py, px < W → py < H →
      ∃ (k : Nat) (c : StreamingChunk),
        (createChunks W H Tw Th bpp data srcStride)[k]? = some c ∧
        chunkContains c px py) ∧
    (∀ (k1 k2 : Nat) (c1 c2 : StreamingChunk),
      (createChunks W H Tw Th bpp data srcStride)[k1]? = some c1 →
      (createChunks W H Tw Th bpp data srcStride)[k2]? = some c2 →
      k1 ≠ k2 → ∀ px py,
        ¬ (chunkContains c1 px py ∧ chunkContains c2 px py)) := by
  refine ⟨createChunks_length W H Tw Th bpp srcStride data, ?_, ?_, ?_⟩
  · intro k c hc
    have h := createChunks_fields W H Tw Th bpp srcStride data k c hW hH
      (by omega) (by omega) hc
    rw [createChunks_length]
    exact h
  · intro px py hpx hpy
    exact createChunks_cover W H Tw Th bpp srcStride data px py hW hH
      (by omega) (by omega) hpx hpy
  · intro k1 k2 c1 c2 hc1 hc2 hne px py
    exact createChunks_disjoint W H Tw Th bpp srcStride data k1 k2 c1 c2
      hW hH (by omega) (by omega) hc1 hc2 hne px py

/-- Witness for C1 at the spec's own scenario: a 100-by-100 frame with
64-by-64 tiles yields 4 chunks, and pixel (99, 99) is covered. -/
theorem tiler_spec_witness :
    (createChunks 100 100 64 64 4 (fun k => k) 400).length = 4 ∧
    ∃ (k : Nat) (c : StreamingChunk),
      (createChunks 100 100 64 64 4 (fun k => k) 400)[k]? = some c ∧
      chunkContains c 99 99 := by
  have h := tiler_spec 100 100 64 64 4 400 (fun k => k)
    (by decide) (by decide) (by decide) (by decide)
  exact ⟨by simpa using h.1, h.2.2.1 99 99 (by decide) (by decide)⟩

/-! ## ZeroCopyBuffer (`zero_copy_optimizer.cc` lines 14-74).

A buffer is {size, atomic refcount (a C++ `int32_t`, modelled as `Int`),
deleter presence, destroyed flag, number of deleter invocations}. The
`delete this` of `Release` runs the destructor, which invokes the
deleter when one is registered. A view produced by `CreateView` is a
fresh buffer with a null deleter held by a `shared_ptr`; destroying that
`shared_ptr` runs the view's destructor directly (null deleter: no
callback) and — in the source — touches nothing else: no code path ever
balances the `AddRef()` the parent received in `CreateView`. -/

/-- The modelled `ZeroCopyBuffer` object state. -/
structure ZCBuf where
  size : Nat
  rc : Int
  hasDeleter : Bool
  destroyed : Bool
  callbackRuns : Nat
  deriving Repr, DecidableEq

/-- The constructor (`zero_copy_optimizer.cc` lines 48-51):
`ref_count_(1)`, deleter as given. -/
def mkZeroCopyBuffer (size : Nat) (hasDeleter : Bool) : ZCBuf :=
  ⟨size, 1, hasDeleter, false, 0⟩

/-- The destructor (lines 53-57): runs the deleter when registered. -/
def zcDestruct (b : ZCBuf) : ZCBuf :=
  { b with
    destroyed := true
    callbackRuns := b.callbackRuns + (if b.hasDeleter = true then 1 else 0) }

/-- `AddRef` (line 25): `fetch_add(1)`. -/
def zcAddRef (b : ZCBuf) : ZCBuf := { b with rc := b.rc + 1 }

/-- `Release` (lines 26-30): `fetch_sub(1)` returns the previous count;
when that was 1 the object is deleted (running the destructor). -/
def zcRelease (b : ZCBuf) : ZCBuf :=
  if b.rc = 1 then zcDestruct { b with rc := 0 }
  else { b with rc := b.rc - 1 }

/-- `CreateView` (lines 59-74): bounds check, then a fresh buffer over
the parent's memory with a null deleter, plus `AddRef()` on the
parent. Returns the updated parent and the view. -/
def zcCreateView (parent : ZCBuf) (offset len : Nat) :
    Option (ZCBuf × ZCBuf) :=
  if parent.size < offset + len then none
  else some (zcAddRef parent,
    { size := len, rc := 1, hasDeleter := false, destroyed := false,
      callbackRuns := 0 })

/-- A parent buffer together with the number of outstanding views. -/
structure ZCSys where
  parent : ZCBuf
  liveViews : Nat
  deriving Repr, DecidableEq

/-- Client events against one parent buffer: create a view (fails on a
destroyed parent or an out-of-range request), drop a live view (the
`shared_ptr` destructor: the view's own null deleter runs and the parent
is not touched — the source has no code that releases the parent on view
destruction), and release the parent handle. -/
inductive ZCEvent where
  | mkView (offset len : Nat)
  | dropView
  | releaseParent
  deriving Repr, DecidableEq

/-- One step of the view/parent lifecycle. -/
def zcStep (s : ZCSys) : ZCEvent → Option ZCSys
  | .mkView offset len =>
    if s.parent.destroyed = true then none
    else
      match zcCreateView s.parent offset len with
      | none => none
      | some (p, _v) => some ⟨p, s.liveViews + 1⟩
  | .dropView =>
    if s.liveViews = 0 then none
    else some ⟨s.parent, s.liveViews - 1⟩
  | .releaseParent =>
    if s.parent.destroyed = true then none
    else some ⟨zcRelease s.parent, s.liveViews⟩

/-- Run a list of events. -/
def zcRun : List ZCEvent → ZCSys → Option ZCSys
  | [], s => some s
  | e :: es, s =>
    match zcStep s e with
    | none => none
    | some s2 => zcRun es s2

theorem zcRun_mkViews (n : Nat) :
    ∀ (rest : List ZCEvent) (sz : Nat) (rc : Int) (hd : Bool) (cb : Nat)
      (views : Nat),
      zcRun (List.replicate n (ZCEvent.mkView 0 sz) ++ rest)
        ⟨⟨sz, rc, hd, false, cb⟩, views⟩ =
      zcRun rest ⟨⟨sz, rc + n, hd, false, cb⟩, views + n⟩ := by
  induction n with
  | zero =>
    intro rest sz rc hd cb views
    simp
  | succ m ih =>
    intro rest sz rc hd cb views
    rw [List.replicate_succ, List.cons_append]
    show (match zcStep ⟨⟨sz, rc, hd, false, cb⟩, views⟩
        (ZCEvent.mkView 0 sz) with
      | none => none
      | some s2 => zcRun (List.replicate m (ZCEvent.mkView 0 sz) ++ rest)
          s2) = _
    simp only [zcStep, zcCreateView, zcAddRef]
    norm_num
    rw [ih rest sz (rc + 1) hd cb (views + 1)]
    have h1 : rc + 1 + (m : Int) = rc + ((m : Int) + 1) := by ring
    have h2 : views + 1 + m = views + (m + 1) := by omega
    rw [h1, h2]

theorem zcRun_drops (n : Nat) :
    ∀ (rest : List ZCEvent) (p : ZCBuf) (views : Nat), n ≤ views →
      zcRun (List.replicate n ZCEvent.dropView ++ rest) ⟨p, views⟩ =
      zcRun rest ⟨p, views - n⟩ := by
  induction n with
  | zero =>
    intro rest p views _
    simp
  | succ m ih =>
    intro rest p views hn
    rw [List.replicate_succ, List.cons_append]
    show (match zcStep ⟨p, views⟩ ZCEvent.dropView with
      | none => none
      | some s2 => zcRun (List.replicate m ZCEvent.dropView ++ rest) s2)
      = _
    simp only [zcStep]
    rw [if_neg (by omega)]
    show zcRun (List.replicate m ZCEvent.dropView ++ rest)
      ⟨p, views - 1⟩ = _
    rw [ih rest p (views - 1) (by omega)]
    have : views - 1 - m = views - (m + 1) := by omega
    rw [this]

theorem zcStep_invariant (s s2 : ZCSys) (e : ZCEvent)
    (hI : s.parent.callbackRuns =
      (if s.parent.destroyed = true then 1 else 0))
    (hD : s.parent.hasDeleter = true)
    (hst : zcStep s e = some s2) :
    s2.parent.callbackRuns =
      (if s2.parent.destroyed = true then 1 else 0) ∧
    s2.parent.hasDeleter = true := by
  rcases e with ⟨o, l⟩ | _ | _ <;> simp only [zcStep] at hst
  · split at hst
    · cases hst
    · rename_i hdes
      rcases hcv : zcCreateView s.parent o l with _ | ⟨p, v⟩ <;>
        rw [hcv] at hst
      · cases hst
      · injection hst with hs2
        subst hs2
        simp only [zcCreateView] at hcv
        split at hcv
        · cases hcv
        · injection hcv with hpv
          have hp : zcAddRef s.parent = p := congrArg Prod.fst hpv
          subst hp
          exact ⟨by simpa [zcAddRef] using hI, by simpa [zcAddRef] using hD⟩
  · split at hst
    · cases hst
    · injection hst with hs2
      subst hs2
      exact ⟨by simpa using hI, by simpa using hD⟩
  · split at hst
    · cases hst
    · rename_i hdes
      injection hst with hs2
      subst hs2
      have hcb : s.parent.callbackRuns = 0 := by
        rw [hI, if_neg hdes]
      by_cases hrc : s.parent.rc = 1
      · constructor
        · simp [zcRelease, if_pos hrc, zcDestruct, hcb, hD]
        · simp [zcRelease, if_pos hrc, zcDestruct, hD]
      · constructor
        · simp [zcRelease, if_neg hrc, hcb]
          simp at hdes
          simp [hdes]
        · simp [zcRelease, if_neg hrc, hD]

theorem zcRun_invariant (evs : List ZCEvent) :
    ∀ s s2 : ZCSys,
      s.parent.callbackRuns =
        (if s.parent.destroyed = true then 1 else 0) →
      s.parent.hasDeleter = true →
      zcRun evs s = some s2 →
      s2.parent.callbackRuns =
        (if s2.parent.destroyed = true then 1 else 0) ∧
      s2.parent.hasDeleter = true := by
  induction evs with
  | nil =>
    intro s s2 hI hD h
    cases h
    exact ⟨hI, hD⟩
  | cons e es ih =>
    intro s s2 hI hD h
    rcases hst : zcStep s e with _ | smid <;>
      simp only [zcRun, hst] at h
    · cases h
    · obtain ⟨hI2, hD2⟩ := zcStep_invariant s smid e hI hD hst
      exact ih smid s2 hI2 hD2 h

/-- C2 counterexample: with a parent buffer (size 8, deleter registered),
the trace create-view, drop-view, release-parent releases the parent and
every view, yet the parent ends with refcount 1, not destroyed, and the
callback has run zero times (the view drop never decremented the
parent's refcount), contradicting the claim that the callback runs once
both the parent and all its views have been released. -/
theorem zero_copy_claim_counterexample :
    zcRun [ZCEvent.mkView 0 8, ZCEvent.dropView, ZCEvent.releaseParent]
      ⟨mkZeroCopyBuffer 8 true, 0⟩ =
      some ⟨⟨8, 1, true, false, 0⟩, 0⟩ ∧
    (⟨⟨8, 1, true, false, 0⟩, 0⟩ : ZCSys).parent.callbackRuns = 0 := by
  decide

/-- C2 amended: the deleter runs exactly once, exactly at the refcount
transition from 1 to 0, and a release at any other count only
decrements; `CreateView` checks `offset + length` against the parent
size, increments the parent refcount and returns a view with refcount 1
and no deleter; but dropping a view leaves the parent untouched — no
code path decrements the parent refcount when a view is released — so
after creating n ≥ 1 views, dropping them all and releasing the parent
the refcount is stuck at n, the parent is never destroyed and the
callback never runs; in every run the callback count is 1 if the parent
was destroyed and 0 otherwise. -/
theorem zero_copy_refcount_spec :
    (∀ b : ZCBuf, b.rc = 1 →
      (zcRelease b).rc = 0 ∧ (zcRelease b).destroyed = true ∧
      (zcRelease b).callbackRuns =
        b.callbackRuns + (if b.hasDeleter = true then 1 else 0)) ∧
    (∀ b : ZCBuf, b.rc ≠ 1 →
      (zcRelease b).rc = b.rc - 1 ∧
      (zcRelease b).destroyed = b.destroyed ∧
      (zcRelease b).callbackRuns = b.callbackRuns) ∧
    (∀ (p : ZCBuf) (o l : Nat), o + l ≤ p.size →
      zcCreateView p o l = some (zcAddRef p, ⟨l, 1, false, false, 0⟩) ∧
      (zcAddRef p).rc = p.rc + 1) ∧
    (∀ (p : ZCBuf) (o l : Nat), p.size < o + l →
      zcCreateView p o l = none) ∧
    (∀ s : ZCSys, 0 < s.liveViews →
      zcStep s ZCEvent.dropView = some ⟨s.parent, s.liveViews - 1⟩) ∧
    (∀ n sz : Nat, 1 ≤ n →
      zcRun (List.replicate n (ZCEvent.mkView 0 sz) ++
          (List.replicate n ZCEvent.dropView ++ [ZCEvent.releaseParent]))
        ⟨mkZeroCopyBuffer sz true, 0⟩ =
        some ⟨⟨sz, (n : Int), true, false, 0⟩, 0⟩) ∧
    (∀ (evs : List ZCEvent) (s2 : ZCSys) (sz : Nat),
      zcRun evs ⟨mkZeroCopyBuffer sz true, 0⟩ = some s2 →
      s2.parent.callbackRuns =
        (if s2.parent.destroyed = true then 1 else 0)) := by
  refine ⟨?_, ?_, ?_, ?_, ?_, ?_, ?_⟩
  · intro b h
    simp [zcRelease, if_pos h, zcDestruct]
  · intro b h
    simp [zcRelease, if_neg h]
  · intro p o l h
    refine ⟨?_, rfl⟩
    simp only [zcCreateView]
    rw [if_neg (by omega)]
  · intro p o l h
    simp only [zcCreateView]
    rw [if_pos h]
  · intro s h
    simp only [zcStep]
    rw [if_neg (by omega)]
  · intro n sz hn
    simp only [mkZeroCopyBuffer]
    rw [zcRun_mkViews n]
    rw [zcRun_drops n _ _ _ (by omega)]
    show (match zcStep ⟨⟨sz, 1 + (n : Int), true, false, 0⟩, 0 + n - n⟩
        ZCEvent.releaseParent with
      | none => none
      | some s2 => zcRun [] s2) = _
    simp only [zcStep]
    rw [if_neg (by simp)]
    simp only [zcRelease]
    rw [if_neg (by
      intro hcon
      simp at hcon
      omega)]
    simp only [zcRun]
    have h1 : 1 + (n : Int) - 1 = (n : Int) := by ring
    have h2 : 0 + n - n = 0 := by omega
    rw [h1, h2]
  · intro evs s2 sz h
    exact (zcRun_invariant evs _ s2 (by simp [mkZeroCopyBuffer])
      (by simp [mkZeroCopyBuffer]) h).1

/-- Witness for C2 (amended) at n = 1: one view created and dropped,
parent released; the parent survives at refcount 1 with no callback; and
a release at refcount 1 destroys the buffer. -/
theorem zero_copy_refcount_spec_witness :
    zcRun (List.replicate 1 (ZCEvent.mkView 0 4) ++
        (List.replicate 1 ZCEvent.dropView ++ [ZCEvent.releaseParent]))
      ⟨mkZeroCopyBuffer 4 true, 0⟩ =
      some ⟨⟨4, (1 : Int), true, false, 0⟩, 0⟩ ∧
    (zcRelease ⟨4, 1, true, false, 0⟩).destroyed = true := by
  have h := zero_copy_refcount_spec
  exact ⟨h.2.2.2.2.2.1 1 4 (by decide),
    (h.1 ⟨4, 1, true, false, 0⟩ (by decide)).2.1⟩


/-! ## Memory-budget admission
(`UltraStreamingPipeline::StreamCaptureAndEncode` lines 213-235,
`ProcessEncodingTask` lines 361-379, `CanAllocateMemory` lines 499-504,
`UpdateMemoryUsage` lines 506-515).

The submission loop polls `CanAllocateMemory(width*height*4)` before
pushing each task; a worker calls `UpdateMemoryUsage(+chunk_memory)`
when it begins `ProcessEncodingTask` and `UpdateMemoryUsage(-...)` after
setting the result. The interleaving of one submitter and the workers is
modelled as a transition system over counts of queued, running and
finished tasks plus the `current_memory_usage_` counter, with a uniform
chunk byte size `S` and byte budget `B` (the source compares against
`max_memory_usage_mb_ * 1024 * 1024`; 268435456 = 256 MB is the minimum
configurable budget, and a 8192-by-8192 RGBA chunk occupies exactly that
many bytes). A disabled event (`none`) is one the corresponding thread
blocks on: `submit` is disabled exactly while the admission check fails
(the 10 ms polling loop), `start` requires a queued task, `finish` a
running one. -/

/-- In-flight state of the chunk pipeline. -/
structure PipelineMemState where
  queued : Nat
  running : Nat
  finished : Nat
  submitted : Nat
  mem : Nat
  deriving Repr, DecidableEq

/-- Translation of `CanAllocateMemory`. -/
def canAllocateMemory (max_usage current_usage requested_bytes : Nat) :
    Prop :=
  current_usage + requested_bytes ≤ max_usage

instance (a b c : Nat) : Decidable (canAllocateMemory a b c) := by
  unfold canAllocateMemory
  infer_instance

inductive PipeEvent where
  | submit
  | start
  | finish
  deriving Repr, DecidableEq

def pipeStep (S B : Nat) (s : PipelineMemState) :
    PipeEvent → Option PipelineMemState
  | .submit =>
    if canAllocateMemory B s.mem S then
      some { s with submitted := s.submitted + 1, queued := s.queued + 1 }
    else none
  | .start =>
    if s.queued = 0 then none
    else some { s with
      queued := s.queued - 1
      running := s.running + 1
      mem := s.mem + S }
  | .finish =>
    if s.running = 0 then none
    else some { s with
      running := s.running - 1
      finished := s.finished + 1
      mem := s.mem - S }

def pipeRun (S B : Nat) : List PipeEvent → PipelineMemState →
    Option PipelineMemState
  | [], s => some s
  | e :: es, s =>
    match pipeStep S B s e with
    | none => none
    | some s2 => pipeRun S B es s2

def pipeInit : PipelineMemState := ⟨0, 0, 0, 0, 0⟩

/-- C5 counterexample: with the budget equal to one chunk's byte size
(256 MB, an 8192-by-8192 RGBA chunk), two back-to-back submissions both
pass the admission check while the tasks are still queued (the counter
is only incremented when a worker starts a task), so the second
submission does not block; once two workers start, the in-flight memory
counter reaches twice the budget. -/
theorem memory_budget_counterexample :
    pipeRun 268435456 268435456
      [PipeEvent.submit, PipeEvent.submit, PipeEvent.start,
        PipeEvent.start] pipeInit = some ⟨0, 2, 0, 2, 536870912⟩ ∧
    ¬ (536870912 ≤ 268435456) ∧
    (pipeRun 268435456 268435456 [PipeEvent.submit, PipeEvent.submit]
      pipeInit).isSome = true := by
  decide

/-- C5 amended: before each submission the pipeline checks
`currentMemoryUsage + chunkBytes <= memoryBudget` and the submitting
thread is blocked (polling) exactly while the check fails; but the
memory counter is incremented only when a worker begins processing a
task and decremented when it finishes, not at submission, so a second
back-to-back submission does not block while the first task is still
queued, and with the budget equal to one chunk's byte size a reachable
interleaving drives the in-flight counter to twice the budget. -/
theorem memory_admission_spec :
    (∀ (S B : Nat) (s : PipelineMemState),
      (pipeStep S B s PipeEvent.submit).isSome = true ↔
        canAllocateMemory B s.mem S) ∧
    (∀ (S B : Nat) (s s2 : PipelineMemState),
      pipeStep S B s PipeEvent.submit = some s2 →
      s2.mem = s.mem ∧ s2.submitted = s.submitted + 1 ∧
      s2.queued = s.queued + 1) ∧
    (∀ (S B : Nat) (s s2 : PipelineMemState),
      pipeStep S B s PipeEvent.start = some s2 → s2.mem = s.mem + S) ∧
    (∀ (S B : Nat) (s s2 : PipelineMemState),
      pipeStep S B s PipeEvent.finish = some s2 → s2.mem = s.mem - S) ∧
    (∀ S : Nat, 1 ≤ S →
      pipeRun S S [PipeEvent.submit, PipeEvent.submit, PipeEvent.start,
        PipeEvent.start] pipeInit = some ⟨0, 2, 0, 2, 2 * S⟩ ∧
      S < 2 * S) := by
  refine ⟨?_, ?_, ?_, ?_, ?_⟩
  · intro S B s
    simp only [pipeStep]
    split <;> simp_all
  · intro S B s s2 h
    simp only [pipeStep] at h
    split at h
    · injection h with h2
      subst h2
      exact ⟨rfl, rfl, rfl⟩
    · cases h
  · intro S B s s2 h
    simp only [pipeStep] at h
    split at h
    · cases h
    · injection h with h2
      subst h2
      rfl
  · intro S B s s2 h
    simp only [pipeStep] at h
    split at h
    · cases h
    · injection h with h2
      subst h2
      rfl
  · intro S hS
    refine ⟨?_, by omega⟩
    simp only [pipeRun, pipeStep, pipeInit]
    rw [if_pos (show canAllocateMemory S 0 S by
      simp [canAllocateMemory])]
    show (match pipeStep S S ⟨0 + 1, 0, 0, 0 + 1, 0⟩ PipeEvent.submit with
      | none => none
      | some s2 => pipeRun S S [PipeEvent.start, PipeEvent.start] s2) = _
    simp only [pipeStep]
    rw [if_pos (show canAllocateMemory S 0 S by
      simp [canAllocateMemory])]
    show (match pipeStep S S ⟨0 + 1 + 1, 0, 0, 0 + 1 + 1, 0⟩
        PipeEvent.start with
      | none => none
      | some s2 => pipeRun S S [PipeEvent.start] s2) = _
    simp only [pipeStep]
    rw [if_neg (by omega)]
    show (match pipeStep S S ⟨0 + 1 + 1 - 1, 0 + 1, 0, 0 + 1 + 1, 0 + S⟩
        PipeEvent.start with
      | none => none
      | some s2 => pipeRun S S [] s2) = _
    simp only [pipeStep]
    rw [if_neg (by omega)]
    simp only [pipeRun]
    have h1 : 0 + 1 + 1 - 1 - 1 = 0 := by omega
    have h3 : 0 + S + S = 2 * S := by omega
    rw [h1, h3]

/-- Witness for C5 (amended) at the concrete 256 MB instance. -/
theorem memory_admission_spec_witness :
    pipeRun 268435456 268435456 [PipeEvent.submit, PipeEvent.submit,
      PipeEvent.start, PipeEvent.start] pipeInit =
      some ⟨0, 2, 0, 2, 536870912⟩ ∧ (268435456 : Nat) < 536870912 := by
  obtain ⟨ha, hb⟩ := memory_admission_spec.2.2.2.2 268435456 (by norm_num)
  norm_num at ha hb
  exact ⟨ha, by norm_num⟩

/-! ## Progress-callback handling of the submission loop
(`StreamCaptureAndEncode` lines 213-254).

Inside the loop the source runs `if (callback) { callback(progress,
"Processing chunk ...") }` and discards the returned `bool`; no
cancellation flag exists, and the async body then collects all futures
and returns the combined result normally. `submitChunks` folds the loop
over the chunks, returning the number of submissions performed together
with the list of discarded callback return values. -/

/-- The chunk-submission loop: one fold step per chunk; the callback is
invoked with the running chunk number and its boolean reply is recorded
but never examined. -/
def submitChunks (numChunks : Nat) (callback : Option (Nat → Bool)) :
    Nat × List Bool :=
  (List.range numChunks).foldl
    (fun acc _ =>
      let submitted := acc.1 + 1
      let ret :=
        match callback with
        | some cb => [cb submitted]
        | none => []
      (submitted, acc.2 ++ ret))
    (0, [])

theorem submitChunks_fst_aux (l : List Nat)
    (callback : Option (Nat → Bool)) :
    ∀ (a : Nat) (rs : List Bool),
      (l.foldl
        (fun acc _ =>
          let submitted := acc.1 + 1
          let ret :=
            match callback with
            | some cb => [cb submitted]
            | none => []
          (submitted, acc.2 ++ ret))
        (a, rs)).1 = a + l.length := by
  induction l with
  | nil => intro a rs; simp
  | cons x xs ih =>
    intro a rs
    simp only [List.foldl_cons, List.length_cons]
    rw [ih (a + 1)]
    omega

/-- C6 counterexample: a callback that returns the stop value at its
very first invocation (and every later one): all 3 chunks are still
submitted — the recorded replies show stop was requested each time —
contradicting the claim that no further chunks are submitted after a
stop. -/
theorem cancellation_claim_counterexample :
    (submitChunks 3 (some fun _ => false)).1 = 3 ∧
    (submitChunks 3 (some fun _ => false)).2 = [false, false, false] ∧
    ¬ ((submitChunks 3 (some fun _ => false)).1 ≤ 1) := by
  decide

/-- C6 amended: the progress callback's boolean return value is
ignored: the loop submits every chunk no matter what the callback
returns (the submission count equals the chunk count and is independent
of the callback), and the request then completes normally — the source
has no cancellation path. -/
theorem submit_ignores_callback (n : Nat)
    (cb cb' : Option (Nat → Bool)) :
    (submitChunks n cb).1 = n ∧
    (submitChunks n cb).1 = (submitChunks n cb').1 := by
  have h1 := submitChunks_fst_aux (List.range n) cb 0 []
  have h2 := submitChunks_fst_aux (List.range n) cb' 0 []
  simp only [List.length_range] at h1 h2
  have e1 : (submitChunks n cb).1 = n := by simpa [submitChunks] using h1
  have e2 : (submitChunks n cb').1 = n := by simpa [submitChunks] using h2
  exact ⟨e1, by rw [e1, e2]⟩

end ScreenshotWebP
